import Mathlib

/-!
Verification development for the chord-sheet-maker repository.

The repository's hard core is (a) a MusicXML → ChordPro conversion engine
(timeline of measures, harmonies, lyrics; repeat resolution; lyrics-inline and
grid renderers), (b) text chord-chart parsers (ChordPro, Ultimate-Guitar,
chords-over-words) into a normalized document model, (c) a chord transposer,
and (d) a byte-level format classifier.

This file is a shallow embedding of those components, translated function by
function from the TypeScript source:

* `ChordChart.transposeChord` / `transposeRoot` — src/renderers/ChordChart.tsx
* `SniffFormat.sniffFormat` and its helpers — sniffFormat.ts
* `ChordProParser.parseChordPro`, `parseChordsOverWords`, `isChordLine`,
  `flushSection` — chordProParser.ts
* `Convert.*` (measure timeline types, `renderSingleMeasureLyrics`,
  `renderGrid`, `resolveMeasureOrder`, `emitWrappedBars`,
  `convertMusicXmlToChordPro`) — the converter module

Modelling conventions:

* JS strings are Lean `String`s; character-level work happens on `List Char`.
* JS `number` arithmetic on integer-valued quantities is `Int`/`Nat`; the one
  real-number division (grid slot quantization) is modelled exactly over ℚ;
  inputs of interest are far from any double-rounding boundary.
* JS regular expressions are hand-translated to decidable character scanners
  with the same backtracking-existence semantics.
* Recursions that are not structural in the source (splitting a chord on its
  last slash) use an explicit fuel argument, with fuel `≥` the string length;
  this keeps every definition kernel-computable.
* Mutable accumulators (the document under construction, the warnings array)
  become explicit state threaded through folds.
-/

namespace ChordSheet

/-! ## JS string-primitive helpers -/

/-- ASCII whitespace recognized by JS `trim`, `split(/\s+/)` and `\s`. -/
def isJsWs (c : Char) : Bool :=
  c == ' ' || c == '\t' || c == '\n' || c == '\r' || c == '\x0b' || c == '\x0c'

/-- JS `String.prototype.trimEnd` on a character list. -/
def jsTrimEnd (l : List Char) : List Char :=
  (l.reverse.dropWhile isJsWs).reverse

/-- JS `String.prototype.trim` on a character list. -/
def jsTrim (l : List Char) : List Char :=
  jsTrimEnd (l.dropWhile isJsWs)

/-- Accumulator form of `split(/\s+/).filter(Boolean)`. -/
def splitWsAux : List Char → List Char → List (List Char)
  | [], cur => if cur.isEmpty then [] else [cur.reverse]
  | c :: rest, cur =>
    if isJsWs c then
      if cur.isEmpty then splitWsAux rest [] else cur.reverse :: splitWsAux rest []
    else
      splitWsAux rest (c :: cur)

/-- JS `line.split(/\s+/).filter(Boolean)`: maximal runs of non-whitespace. -/
def splitWs (l : List Char) : List (List Char) :=
  splitWsAux l []

/-- Substring occurrence test (JS `String.prototype.includes`). -/
def containsSub : List Char → List Char → Bool
  | [], needle => needle.isEmpty
  | c :: rest, needle => needle.isPrefixOf (c :: rest) || containsSub rest needle

/-- ASCII lower-casing as performed by JS `toLowerCase` on the inputs at hand. -/
def lowerStr (l : List Char) : List Char :=
  l.map Char.toLower

/-- Index of the last occurrence of `c` (JS `lastIndexOf`, `none` for -1). -/
def lastIdxOf : List Char → Char → Option Nat
  | [], _ => none
  | a :: as, c =>
    match lastIdxOf as c with
    | some i => some (i + 1)
    | none => if a = c then some 0 else none

/-- Index of the first occurrence of `c` (JS `indexOf`, `none` for -1). -/
def firstIdxOf : List Char → Char → Option Nat
  | [], _ => none
  | a :: as, c =>
    if a = c then some 0 else (firstIdxOf as c).map (· + 1)

/-- JS `Array.prototype.indexOf` (`none` for -1), with decidable equality. -/
def idxOf? {α : Type} [DecidableEq α] : List α → α → Option Nat
  | [], _ => none
  | a :: as, x =>
    if a = x then some 0 else (idxOf? as x).map (· + 1)

/-! ## Transposer (src/renderers/ChordChart.tsx) -/

namespace ChordChart

/-- `const CHROMATIC = ['C','C#','D','D#','E','F','F#','G','G#','A','A#','B']`. -/
def CHROMATIC : List String :=
  ["C", "C#", "D", "D\x23", "E", "F", "F#", "G", "G\x23", "A", "A#", "B"]

/-- `const ENHARMONIC = { Db:'C#', Eb:'D#', Fb:'E', Gb:'F#', Ab:'G#', Bb:'A#', Cb:'B' }`. -/
def ENHARMONIC : List (String × String) :=
  [("Db", "C#"), ("Eb", "D#"), ("Fb", "E"), ("Gb", "F#"), ("Ab", "G#"),
   ("Bb", "A#"), ("Cb", "B")]

/-- `transposeRoot(root, steps)`: normalize flats to sharps, index into the
chromatic scale, shift by `((idx + steps) % 12 + 12) % 12`.  A root not found
in the scale is returned unchanged (JS `indexOf === -1`). -/
def transposeRoot (root : String) (steps : Int) : String :=
  if steps = 0 then root
  else
    let normalized := (ENHARMONIC.lookup root).getD root
    match idxOf? CHROMATIC normalized with
    | none => root
    | some idx => CHROMATIC.getD ((((idx : Int) + steps) % 12 + 12) % 12).toNat ""

/-- The root regex `^([A-G][#b]?)(.*)$` of `transposeChord`.  Returns the
captured `(root, rest)`.  JS `.` does not match a newline and `$` anchors at
the true end of the string, so a match exists exactly when the head character
is `A`–`G` and everything after the (greedily taken) accidental is
newline-free. -/
def matchRoot : List Char → Option (List Char × List Char)
  | [] => none
  | [c] => if 'A' ≤ c ∧ c ≤ 'G' then some ([c], []) else none
  | c :: a :: rest2 =>
    if 'A' ≤ c ∧ c ≤ 'G' then
      if a = '#' ∨ a = 'b' then
        if rest2.all (· ≠ '\n') then some ([c, a], rest2) else none
      else if (a :: rest2).all (· ≠ '\n') then some ([c], a :: rest2) else none
    else none

/-- The non-slash path of `transposeChord`: transpose the root captured by the
root regex and re-attach the untouched suffix; non-chord-shaped input is
returned unchanged. -/
def transposeFlat (chord : List Char) (steps : Int) : List Char :=
  match matchRoot chord with
  | some (root, rest) => (transposeRoot (String.mk root) steps).data ++ rest
  | none => chord

/-- Fuel-indexed body of `transposeChord(chord, steps)`: split on the last `/`
with positive index and recurse on both sides, otherwise transpose the root
captured by `matchRoot` and keep the suffix.  Any fuel `≥ chord.length`
reaches the fixpoint (each recursive call strictly shrinks the list). -/
def transposeChordF : Nat → List Char → Int → List Char
  | 0, chord, _ => chord
  | fuel + 1, chord, steps =>
    if steps = 0 then chord
    else
      match lastIdxOf chord '/' with
      | some slashIdx =>
        if 0 < slashIdx then
          transposeChordF fuel (chord.take slashIdx) steps
            ++ '/' :: transposeChordF fuel (chord.drop (slashIdx + 1)) steps
        else transposeFlat chord steps
      | none => transposeFlat chord steps

/-- `transposeChord(chord, steps)` from src/renderers/ChordChart.tsx. -/
def transposeChord (chord : String) (steps : Int) : String :=
  String.mk (transposeChordF chord.data.length chord.data steps)

/-- A flat (slash-free) chord component is in canonical sharp form when its
root, as captured by the code's own root regex, is one of the twelve
sharp-spelled chromatic names and its quality suffix does not begin with an
accidental character (a component failing the root match is inert under
transposition and counts as canonical). -/
def canonicalFlat (l : List Char) : Bool :=
  match matchRoot l with
  | none => true
  | some (root, rest) =>
    (idxOf? CHROMATIC (String.mk root)).isSome &&
    (match rest with
     | [] => true
     | a :: _ => !(a = '#' || a = 'b'))

/-- Fuel-indexed canonical-form predicate following the slash decomposition of
`transposeChordF`. -/
def canonicalF : Nat → List Char → Bool
  | 0, _ => true
  | fuel + 1, l =>
    match lastIdxOf l '/' with
    | some i =>
      if 0 < i then canonicalF fuel (l.take i) && canonicalF fuel (l.drop (i + 1))
      else canonicalFlat l
    | none => canonicalFlat l

/-- A chord string all of whose slash components are in canonical sharp form. -/
def canonicalChord (c : String) : Bool :=
  canonicalF c.data.length c.data

/-- Exact-fuel views used by the lemmas below. -/
def transposeChordL (l : List Char) (s : Int) : List Char :=
  transposeChordF l.length l s

/-- Exact-fuel view of `canonicalF`. -/
def canonicalL (l : List Char) : Bool :=
  canonicalF l.length l


/-- Shape check for a sharp-canonical root: a single letter `A`–`G`, or such a
letter followed by `#`. -/
def rootShapeOk : List Char → Bool
  | [c] => decide ('A' ≤ c) && decide (c ≤ 'G')
  | [c, a] => decide ('A' ≤ c) && decide (c ≤ 'G') && decide (a = '#')
  | _ => false

end ChordChart

/-! ## Normalized chart model (ChordChartModel.ts) -/

namespace ChordModel

inductive TokenKind
  | chord
  | lyric
  | comment
deriving DecidableEq

structure ChartToken where
  kind : TokenKind
  text : String
deriving DecidableEq

structure ChartLine where
  tokens : List ChartToken
deriving DecidableEq

inductive SectionType
  | verse
  | chorus
  | bridge
  | intro
  | outro
  | preChorus
  | interlude
  | solo
  | grid
  | tab
  | unknown
deriving DecidableEq

structure ChartSection where
  type : SectionType
  label : Option String
  lines : List ChartLine
deriving DecidableEq

structure ChordChartDocument where
  title : Option String := none
  artist : Option String := none
  subtitle : Option String := none
  key : Option String := none
  capo : Option String := none
  tempo : Option String := none
  time : Option String := none
  sections : List ChartSection
  sourceFormat : String
deriving DecidableEq

end ChordModel

/-! ## Shared chord-token grammar (`CHORD_TOKEN_RE`, duplicated verbatim in
sniffFormat.ts and chordProParser.ts) -/

/-- JS-object key lookup on a string-keyed table (first match). -/
def aLookup {β : Type} : List (String × β) → String → Option β
  | [], _ => none
  | (k, v) :: rest, key => if k = key then some v else aLookup rest key

def isDigitChar (c : Char) : Bool := '0' ≤ c && c ≤ '9'

def isRootLetter (c : Char) : Bool := 'A' ≤ c && c ≤ 'G'

def isAccidental (c : Char) : Bool := c = '#' || c = 'b'

/-- Quality words generated by
`(?:m(?:aj)?|M|maj|min|dim|aug|sus[24]?|add\d*)?`; the digits of `add\d*` are
absorbed by the following `(?:\d+)?`, which accepts any digit run. -/
def chordQualityWords : List (List Char) :=
  ["m", "maj", "M", "min", "dim", "aug", "sus", "sus2", "sus4", "add"].map String.data

/-- After root and optional quality word: `(?:\d+)?(?:\/[A-G][#b]?)?$`. -/
def chordTailOk (r : List Char) : Bool :=
  match r.dropWhile isDigitChar with
  | [] => true
  | '/' :: c :: rest2 =>
    isRootLetter c &&
      (match rest2 with
       | [] => true
       | [a] => isAccidental a
       | _ => false)
  | _ => false

/-- Remainders after `[A-G][#b]?` (both backtracking choices when an
accidental is present). -/
def rootRemainders : List Char → List (List Char)
  | [] => []
  | c :: rest =>
    if isRootLetter c then
      match rest with
      | [] => [[]]
      | a :: rest2 => if isAccidental a then [rest2, rest] else [rest]
    else []

/-- `CHORD_TOKEN_RE.test(t)`:
`^[A-G][#b]?(?:m(?:aj)?|M|maj|min|dim|aug|sus[24]?|add\d*)?(?:\d+)?(?:\/[A-G][#b]?)?$`,
as an existence-of-parse check (anchored regex with backtracking). -/
def CHORD_TOKEN_RE (t : List Char) : Bool :=
  (rootRemainders t).any fun r =>
    chordTailOk r ||
      chordQualityWords.any fun q => q.isPrefixOf r && chordTailOk (r.drop q.length)

/-! ## ChordPro / chords-over-words parsers (chordProParser.ts) -/

namespace ChordProParser

open ChordModel

/-- `normalizeLineEndings`: `\r\n` → `\n`, then `\r` → `\n`. -/
def normalizeLineEndings : List Char → List Char
  | [] => []
  | '\r' :: '\n' :: rest => '\n' :: normalizeLineEndings rest
  | '\r' :: rest => '\n' :: normalizeLineEndings rest
  | c :: rest => c :: normalizeLineEndings rest

/-- JS `text.split('\n')` (a trailing newline yields a final empty line; the
empty string yields one empty line). -/
def splitNl : List Char → List (List Char)
  | [] => [[]]
  | '\n' :: rest => [] :: splitNl rest
  | c :: rest =>
    match splitNl rest with
    | h :: t => (c :: h) :: t
    | [] => [[c]]

/-- Metadata field targeted by a recognized metadata directive. -/
inductive MetaField
  | title
  | artist
  | subtitle
  | key
  | capo
  | tempo
  | time
deriving DecidableEq

/-- `DIRECTIVE_META`: lower-cased directive names → document metadata keys. -/
def DIRECTIVE_META : List (String × MetaField) :=
  [("title", .title), ("t", .title),
   ("artist", .artist), ("a", .artist),
   ("subtitle", .subtitle), ("st", .subtitle),
   ("key", .key),
   ("capo", .capo),
   ("tempo", .tempo),
   ("time", .time)]

/-- `SECTION_START`: lower-cased section-start directive names → SectionType. -/
def SECTION_START : List (String × SectionType) :=
  [("start_of_chorus", .chorus), ("soc", .chorus),
   ("start_of_verse", .verse), ("sov", .verse),
   ("start_of_bridge", .bridge), ("sob", .bridge),
   ("start_of_grid", .grid), ("sog", .grid),
   ("start_of_tab", .tab), ("sot", .tab),
   ("start_of_pre_chorus", .preChorus),
   ("start_of_intro", .intro),
   ("start_of_outro", .outro),
   ("start_of_interlude", .interlude),
   ("start_of_solo", .solo)]

/-- `SECTION_END`: lower-cased section-end directive names. -/
def SECTION_END : List String :=
  ["end_of_chorus", "eoc",
   "end_of_verse", "eov",
   "end_of_bridge", "eob",
   "end_of_grid", "eog",
   "end_of_tab", "eot",
   "end_of_pre_chorus",
   "end_of_intro",
   "end_of_outro",
   "end_of_interlude",
   "end_of_solo"]

/-- The directive regex `^\{([^:}]+)(?::([^}]*))?\}$` applied to a trimmed
line: returns the captured `(name, value?)`.  A match requires the line to be
`{` + body + `}` with the closing brace at the very end, body free of `}`, and
a non-empty name part before the first `:`. -/
def matchDirective (l : List Char) : Option (List Char × Option (List Char)) :=
  match l with
  | '{' :: rest =>
    if rest.getLast? = some '}' then
      let interior := rest.dropLast
      if interior.all (· ≠ '}') then
        let name := interior.takeWhile (· ≠ ':')
        if name.isEmpty then none
        else if name.length = interior.length then some (name, none)
        else some (name, some (interior.drop (name.length + 1)))
      else none
    else none
  | _ => none

/-- Keywords of the parser's `UG_SECTION_RE`
`^\[(Verse|Chorus|Bridge|Intro|Outro|Pre-?Chorus|Interlude|Hook|Solo|Instrumental|Refrain)[^\]]*\]$/i`. -/
def UG_KEYWORDS : List (List Char) :=
  ["verse", "chorus", "bridge", "intro", "outro", "pre-chorus", "prechorus",
   "interlude", "hook", "solo", "instrumental", "refrain"].map String.data

/-- Test of the parser's anchored `UG_SECTION_RE` on a trimmed line. -/
def ugSectionTest (l : List Char) : Bool :=
  match l with
  | '[' :: rest =>
    UG_KEYWORDS.any fun k =>
      k.isPrefixOf (lowerStr rest) &&
        (let after := rest.drop k.length
         after.getLast? = some ']' && after.dropLast.all (· ≠ ']'))
  | _ => false

/-- `sectionTypeFromLabel`: keyword substring classification, first match
wins. -/
def sectionTypeFromLabel (label : List Char) : SectionType :=
  let l := lowerStr label
  if containsSub l "chorus".data then .chorus
  else if containsSub l "verse".data then .verse
  else if containsSub l "bridge".data then .bridge
  else if containsSub l "intro".data then .intro
  else if containsSub l "outro".data then .outro
  else if containsSub l "pre-chorus".data || containsSub l "prechorus".data then .preChorus
  else if containsSub l "interlude".data then .interlude
  else if containsSub l "solo".data then .solo
  else if containsSub l "grid".data then .grid
  else if containsSub l "tab".data then .tab
  else .unknown

/-- `flushSection`: append the section only when it has a non-empty line. -/
def flushSection (doc : ChordChartDocument) (sec : ChartSection) : ChordChartDocument :=
  let nonEmpty := sec.lines.filter (fun l => !l.tokens.isEmpty)
  if nonEmpty.isEmpty then doc
  else { doc with sections := doc.sections ++ [{ sec with lines := nonEmpty }] }

/-- `makeSection`: empty unnamed section. -/
def makeSection (type : SectionType := .unknown) (label : Option String := none) :
    ChartSection :=
  { type := type, label := label, lines := [] }

/-- Split at the first occurrence of `c`: `(before, after)` with
`l = before ++ c :: after` and `before` free of `c`. -/
def splitAtFirst : List Char → Char → Option (List Char × List Char)
  | [], _ => none
  | a :: rest, c =>
    if a = c then some ([], rest)
    else (splitAtFirst rest c).map (fun p => (a :: p.1, p.2))

/-- Lines 131–137 of the bracket loop: push a lyric token for the trailing
text when it has visible content or contains a space. -/
def lyricTokenOf (lyricText : List Char) : List ChartToken :=
  if !(jsTrim lyricText).isEmpty || lyricText.contains ' ' then
    if !(jsTrimEnd lyricText).isEmpty || lyricText.head? = some ' ' then
      [{ kind := .lyric, text := String.mk lyricText }]
    else []
  else []

/-- The global-exec loop over `/\[([^\]]+)\]([^\[]*)/g`: each match yields a
chord token (trimmed bracket content, which must be non-empty) and an optional
lyric token for the trailing text up to the next bracket; on a failed match
the engine advances one position.  Fuel `≥ l.length` reaches the fixpoint. -/
def execBracketsF : Nat → List Char → List ChartToken
  | 0, _ => []
  | fuel + 1, l =>
    match l with
    | [] => []
    | '[' :: rest =>
      match splitAtFirst rest ']' with
      | some (content, after) =>
        if content.isEmpty then execBracketsF fuel rest
        else
          ({ kind := .chord, text := String.mk (jsTrim content) } : ChartToken) ::
            (lyricTokenOf (after.takeWhile (· ≠ '[')) ++
              execBracketsF fuel (after.dropWhile (· ≠ '[')))
      | none => execBracketsF fuel rest
    | _ :: rest => execBracketsF fuel rest

/-- `parseBracketLine`: leading text before the first bracket becomes a lyric
token, then the bracket-exec loop. -/
def parseBracketLine (line : List Char) : ChartLine :=
  let preTokens : List ChartToken :=
    match firstIdxOf line '[' with
    | some fb =>
      if 0 < fb then
        let pre := line.take fb
        if !(jsTrim pre).isEmpty then
          [{ kind := .lyric, text := String.mk (jsTrimEnd pre) }]
        else []
      else []
    | none => []
  { tokens := preTokens ++ execBracketsF line.length line }

/-- Parser state: the document built so far plus the open section. -/
structure ParseState where
  doc : ChordChartDocument
  current : ChartSection
deriving DecidableEq

/-- Set one metadata field of the document. -/
def setMetaField (doc : ChordChartDocument) (f : MetaField) (v : String) :
    ChordChartDocument :=
  match f with
  | .title => { doc with title := some v }
  | .artist => { doc with artist := some v }
  | .subtitle => { doc with subtitle := some v }
  | .key => { doc with key := some v }
  | .capo => { doc with capo := some v }
  | .tempo => { doc with tempo := some v }
  | .time => { doc with time := some v }

/-- Directive checks after the (failed or skipped) metadata assignment:
section start, section end, comment, and the silent-ignore fallthrough. -/
def directiveRest (st : ParseState) (key : String) (value : Option String) :
    ParseState :=
  match aLookup SECTION_START key with
  | some sType =>
    { doc := flushSection st.doc st.current,
      current := makeSection sType
        (match value with
         | some v => if v ≠ "" then some v else none
         | none => none) }
  | none =>
    if SECTION_END.contains key then
      { doc := flushSection st.doc st.current, current := makeSection }
    else if (key = "comment" || key = "c" || key = "comment_italic" || key = "ci") &&
        (match value with | some v => v ≠ "" | none => false) then
      { st with current := { st.current with lines := st.current.lines ++
          [{ tokens := [{ kind := .comment, text := value.getD "" }] }] } }
    else st

/-- One iteration of the `parseChordPro` line loop. -/
def parseChordProLine (st : ParseState) (rawLine : List Char) : ParseState :=
  let trimmed := jsTrim rawLine
  if trimmed.isEmpty then st
  else if trimmed.head? = some '%' then st
  else
    match matchDirective trimmed with
    | some (name, valueOpt) =>
      let key := String.mk (lowerStr (jsTrim name))
      let value : Option String := valueOpt.map (fun v => String.mk (jsTrim v))
      match aLookup DIRECTIVE_META key, value with
      | some f, some v =>
        if v ≠ "" then { st with doc := setMetaField st.doc f v }
        else directiveRest st key value
      | some _, none => directiveRest st key value
      | none, _ => directiveRest st key value
    | none =>
      if ugSectionTest trimmed then
        let label := (trimmed.drop 1).dropLast
        { doc := flushSection st.doc st.current,
          current := makeSection (sectionTypeFromLabel label) (some (String.mk label)) }
      else if trimmed.contains '[' then
        let line := parseBracketLine trimmed
        if line.tokens.isEmpty then st
        else { st with current := { st.current with lines := st.current.lines ++ [line] } }
      else
        { st with current := { st.current with lines := st.current.lines ++
            [{ tokens := [{ kind := .lyric, text := String.mk trimmed }] }] } }

/-- `parseChordPro(text)`: line-oriented state machine producing a normalized
document. -/
def parseChordPro (text : String) : ChordChartDocument :=
  let st0 : ParseState :=
    { doc := { sections := [], sourceFormat := "chordpro" }, current := makeSection }
  let st := (splitNl (normalizeLineEndings text.data)).foldl parseChordProLine st0
  flushSection st.doc st.current

/-- `parseUltimateGuitar` reuses `parseChordPro` and re-tags the source. -/
def parseUltimateGuitar (text : String) : ChordChartDocument :=
  { parseChordPro text with sourceFormat := "ultimateguitar" }

/-- `isChordLine` of chordProParser.ts: at least one chord-grammar token and a
70 % majority.  The JS ratio test `chordCount / tokens.length >= 0.7` is
modelled exactly as `10 * chordCount ≥ 7 * tokens.length`; for line lengths
under 2 KB the double-precision comparison agrees with the rational one. -/
def isChordLine (line : List Char) : Bool :=
  let tokens := splitWs (jsTrim line)
  if tokens.length < 1 then false
  else
    let chordCount := (tokens.filter CHORD_TOKEN_RE).length
    decide (1 ≤ chordCount) && decide (7 * tokens.length ≤ 10 * chordCount)

/-- The `parseChordsOverWords` scanning loop over raw lines. -/
def cowLines : List (List Char) → List ChartLine
  | [] => []
  | line :: rest =>
    let trimmed := jsTrim line
    if trimmed.isEmpty then cowLines rest
    else if isChordLine trimmed then
      let chordTokens : List ChartToken :=
        (splitWs trimmed).map fun t => { kind := .chord, text := String.mk t }
      match rest with
      | [] => [{ tokens := chordTokens }]
      | next :: rest2 =>
        let nextLine := jsTrim next
        if !nextLine.isEmpty && !isChordLine nextLine then
          { tokens := chordTokens ++ [{ kind := .lyric, text := String.mk nextLine }] }
            :: cowLines rest2
        else
          { tokens := chordTokens } :: cowLines (next :: rest2)
    else
      { tokens := [{ kind := .lyric, text := String.mk trimmed }] } :: cowLines rest

/-- `parseChordsOverWords(text)`: all lines live in one implicit section. -/
def parseChordsOverWords (text : String) : ChordChartDocument :=
  let doc : ChordChartDocument := { sections := [], sourceFormat := "chords-over-words" }
  let current := makeSection
  flushSection doc { current with lines := cowLines (splitNl (normalizeLineEndings text.data)) }

/-- Statement of the C6 flush invariant: every section of the document has at
least one line with at least one token. -/
def sectionsOk (doc : ChordChartDocument) : Bool :=
  doc.sections.all fun s => s.lines.any fun l => !l.tokens.isEmpty

end ChordProParser

/-! ## Format classifier (sniffFormat.ts) -/

namespace SniffFormat

inductive DetectedFormat
  | mxl
  | musicxml
  | chordpro
  | ultimateguitar
  | chordsOverWords
  | unknown
deriving DecidableEq

/-- ZIP local-file magic `PK\x03\x04` on the first four bytes. -/
def hasZipMagic (bytes : List Nat) : Bool :=
  match bytes with
  | b0 :: b1 :: b2 :: b3 :: _ => b0 = 0x50 && b1 = 0x4b && b2 = 0x03 && b3 = 0x04
  | _ => false

/-- `fileExtension`: lower-cased text after the last dot, `""` if none. -/
def fileExtension (filename : String) : String :=
  match lastIdxOf filename.data '.' with
  | some dot => String.mk (lowerStr (filename.data.drop (dot + 1)))
  | none => ""

/-- Names of `CHORDPRO_DIRECTIVE_RE`:
`\{\s*(?:title|t|artist|a|subtitle|st|key|capo|tempo|time|start_of_chorus|soc|start_of_verse|sov|start_of_grid|sog|start_of_bridge|sob|comment|c)\s*[}:]/i`. -/
def CHORDPRO_DIRECTIVE_NAMES : List (List Char) :=
  ["title", "t", "artist", "a", "subtitle", "st", "key", "capo", "tempo", "time",
   "start_of_chorus", "soc", "start_of_verse", "sov", "start_of_grid", "sog",
   "start_of_bridge", "sob", "comment", "c"].map String.data

/-- Match of `CHORDPRO_DIRECTIVE_RE` anchored at the current position. -/
def directiveAt (l : List Char) : Bool :=
  match l with
  | '{' :: rest =>
    let afterWs := rest.dropWhile isJsWs
    CHORDPRO_DIRECTIVE_NAMES.any fun nm =>
      nm.isPrefixOf (lowerStr afterWs) &&
        (match (afterWs.drop nm.length).dropWhile isJsWs with
         | c :: _ => c = '}' || c = ':'
         | [] => false)
  | _ => false

/-- `CHORDPRO_DIRECTIVE_RE.test(head)`: unanchored search. -/
def chordProDirectiveTest : List Char → Bool
  | [] => false
  | c :: rest => directiveAt (c :: rest) || chordProDirectiveTest rest

/-- Keywords of the classifier's `UG_SECTION_RE` (multiline, not
end-anchored). -/
def UG_SECTION_KEYWORDS : List (List Char) :=
  ["verse", "chorus", "bridge", "intro", "outro", "pre-chorus", "prechorus",
   "interlude", "hook", "solo", "instrumental", "refrain"].map String.data

/-- Match of the classifier's `UG_SECTION_RE` at a line start: `[` + keyword +
any characters other than `]` (newlines included) + `]`. -/
def ugHeadMatch (l : List Char) : Bool :=
  match l with
  | '[' :: rest =>
    UG_SECTION_KEYWORDS.any fun k =>
      k.isPrefixOf (lowerStr rest) && (rest.drop k.length).contains ']'
  | _ => false

/-- Scan for a `^`-anchored match after each newline (`/im` flags). -/
def ugSectionSearchAux : List Char → Bool
  | [] => false
  | '\n' :: rest => ugHeadMatch rest || ugSectionSearchAux rest
  | _ :: rest => ugSectionSearchAux rest

/-- `UG_SECTION_RE.test(head)` with the `m` flag: a match at the string start
or after any newline. -/
def ugSectionSearch (head : List Char) : Bool :=
  ugHeadMatch head || ugSectionSearchAux head

/-- Tail of `BRACKET_CHORD_RE` after the root: up to ten characters other than
`]`/newline, then `]`. -/
def bracketTail : List Char → Nat → Bool
  | [], _ => false
  | c :: rest, budget =>
    if c = ']' then true
    else if c = '\n' then false
    else
      match budget with
      | 0 => false
      | b + 1 => bracketTail rest b

/-- Match of `BRACKET_CHORD_RE` `/\[[A-G][#b]?[^\]\n]{0,10}\]/` at the current
position (both backtracking choices for the accidental). -/
def bracketChordAt (l : List Char) : Bool :=
  match l with
  | '[' :: c :: rest =>
    isRootLetter c &&
      (bracketTail rest 10 ||
        (match rest with
         | a :: rest2 => isAccidental a && bracketTail rest2 10
         | [] => false))
  | _ => false

/-- `BRACKET_CHORD_RE.test(head)`: unanchored search. -/
def bracketChordSearch : List Char → Bool
  | [] => false
  | c :: rest => bracketChordAt (c :: rest) || bracketChordSearch rest

/-- `isChordLine` of sniffFormat.ts: at least two chord-grammar tokens and a
70 % majority (same exact-rational modelling of the ratio as the parser's). -/
def isChordLine (line : List Char) : Bool :=
  let tokens := splitWs (jsTrim line)
  if tokens.isEmpty then false
  else
    let matchCount := (tokens.filter CHORD_TOKEN_RE).length
    decide (2 ≤ matchCount) && decide (7 * tokens.length ≤ 10 * matchCount)

/-- `sniffFormatFromBytes(bytes, filename)`, modelled for ASCII inputs: the
byte sequence is the sequence of character codes of `text`, so UTF-8 decoding
is the identity and the 2 KB head is the first 2048 characters.  The
chords-over-words ratio `chordLines >= textLines * 0.25` is exact in doubles
and is modelled as `4 * chordLines ≥ textLines`. -/
def sniffFormatFromBytes (text : String) (filename : String) : DetectedFormat :=
  if hasZipMagic (text.data.map Char.toNat) then .mxl
  else
    let ext := fileExtension filename
    let head := text.data.take 2048
    if containsSub head "<score-partwise".data || containsSub head "<score-timewise".data then
      .musicxml
    else if (ext = "xml" || ext = "musicxml") &&
        "<?xml".data.isPrefixOf (head.dropWhile isJsWs) then
      .musicxml
    else if chordProDirectiveTest head then .chordpro
    else if ugSectionSearch head then .ultimateguitar
    else if bracketChordSearch head then .chordpro
    else
      let counts := (ChordProParser.splitNl head).foldl
        (fun (acc : Nat × Nat) line =>
          if (jsTrim line).isEmpty then acc
          else if isChordLine line then (acc.1 + 1, acc.2)
          else (acc.1, acc.2 + 1))
        (0, 0)
      if 2 ≤ counts.1 && counts.2 ≤ 4 * counts.1 then .chordsOverWords
      else if ["cho", "chopro", "chord", "crd", "pro"].contains ext then .chordpro
      else .unknown

end SniffFormat

/-! ## MusicXML → ChordPro engine (converter module) -/

namespace Convert

inductive ChordProFormatMode
  | lyricsInline
  | gridOnly
  | auto
deriving DecidableEq

/-- Resolved format mode (the `"auto"` case already decided). -/
inductive ResolvedFormatMode
  | lyricsInline
  | gridOnly
deriving DecidableEq

inductive RepeatStrategy
  | none
  | simpleUnroll
deriving DecidableEq

inductive ChordBracketStyle
  | separate
  | combined
deriving DecidableEq

inductive BarlineStyle
  | pipes
  | none
deriving DecidableEq

inductive MeasureWrapPolicy
  | barsPerLine
  | noWrap
deriving DecidableEq

/-- `"emit-if-known" | "omit"` (the latter constructor is named `omitted`). -/
inductive KeySignaturePolicy
  | emitIfKnown
  | omitted
deriving DecidableEq

inductive TimeSignaturePolicy
  | emitIfKnown
  | omitted
deriving DecidableEq

inductive MetadataPolicy
  | emit
  | omitted
deriving DecidableEq

structure ConvertOptions where
  barsPerLine : Int
  gridSlotsPerMeasure : Option Int
  barlineStyle : BarlineStyle
  wrapPolicy : MeasureWrapPolicy
  chordBracketStyle : ChordBracketStyle
  formatMode : ChordProFormatMode
  repeatStrategy : RepeatStrategy
  annotateUnexpandedRepeats : Bool
  metadataPolicy : MetadataPolicy
  keyPolicy : KeySignaturePolicy
  timePolicy : TimeSignaturePolicy
  normalizeWhitespace : Bool
deriving DecidableEq

def getDefaultConvertOptions : ConvertOptions :=
  { barsPerLine := 4,
    gridSlotsPerMeasure := Option.none,
    barlineStyle := .pipes,
    wrapPolicy := .barsPerLine,
    chordBracketStyle := .separate,
    formatMode := .auto,
    repeatStrategy := .none,
    annotateUnexpandedRepeats := true,
    metadataPolicy := .emit,
    keyPolicy := .emitIfKnown,
    timePolicy := .emitIfKnown,
    normalizeWhitespace := true }

structure HarmonyEvent where
  measureIndex : Nat
  offsetDivisions : Int
  chordText : String
deriving DecidableEq

/-- `syllabic ∈ {single, begin, middle, end}` (the last constructor is named
`last` because `end` is reserved). -/
inductive Syllabic
  | single
  | begin
  | middle
  | last
deriving DecidableEq

structure LyricEvent where
  verse : String
  measureIndex : Nat
  offsetDivisions : Int
  text : String
  syllabic : Option Syllabic
  extend : Bool
deriving DecidableEq

/-- `MeasureData`; `lyricsByVerse` is a string-keyed record modelled as an
association list in insertion order, `repeatStart?`/`repeatEnd?` default to
`false` and an absent `endings` array to `[]`. -/
structure MeasureData where
  measureIndex : Nat
  durationDivisions : Int
  harmonies : List HarmonyEvent
  lyricsByVerse : List (String × List LyricEvent)
  repeatStart : Bool
  repeatEnd : Bool
  endings : List Int
deriving DecidableEq

def defaultLyricEvent : LyricEvent :=
  { verse := "", measureIndex := 0, offsetDivisions := 0, text := "",
    syllabic := Option.none, extend := false }

/-- Insertion of `x` behind every existing element that the comparator
places strictly before it (`bef y x` means the JS comparator returns a
negative number on `(y, x)`).  On comparator ties `x` is placed in front, so
inserting the earlier element of the original list into the sorted tail
keeps the original relative order of tied elements. -/
def stableInsert {α : Type} (bef : α → α → Bool) (x : α) : List α → List α
  | [] => [x]
  | y :: ys => if bef y x then y :: stableInsert bef x ys else x :: y :: ys

/-- Stable ascending sort, modelling JS `Array.prototype.sort` (stable per
ES2019): `bef a b` holds when the comparator is negative on `(a, b)`, and
elements that compare equal keep their input order. -/
def stableSort {α : Type} (bef : α → α → Bool) : List α → List α
  | [] => []
  | x :: xs => stableInsert bef x (stableSort bef xs)

/-- `[...events].sort((a, b) => a.offsetDivisions - b.offsetDivisions)`:
the comparator is negative exactly when `key a < key b`. -/
def sortByOffset {α : Type} (key : α → Int) (l : List α) : List α :=
  stableSort (fun a b => key a < key b) l

/-- `formatChordPrefix(chords, style)`. -/
def formatChordPrefix (chords : List String) (style : ChordBracketStyle) : String :=
  if chords.isEmpty then ""
  else
    match style with
    | .combined => "[" ++ String.intercalate " " chords ++ "]"
    | .separate => String.join (chords.map fun c => "[" ++ c ++ "]")

/-- Collapse every whitespace run to a single space (JS
`replace(/\s+/g, " ")`). -/
def collapseWsAux : Bool → List Char → List Char
  | _, [] => []
  | prevWs, c :: rest =>
    if isJsWs c then
      if prevWs then collapseWsAux true rest else ' ' :: collapseWsAux true rest
    else c :: collapseWsAux false rest

/-- `joined.replace(/\s+/g, " ").trim()`. -/
def normWs (s : String) : String :=
  String.mk (jsTrim (collapseWsAux false s.data))

/-- The carry-forward while loop of `renderSingleMeasureLyrics`:
`while (carryIndex < sortedLyrics.length - 1 && sortedLyrics[carryIndex].offsetDivisions < harmony.offsetDivisions) carryIndex += 1`.
Fuel `≥ lyr.length` reaches the fixpoint. -/
def advanceCarry : Nat → List LyricEvent → Nat → Int → Nat
  | 0, _, carry, _ => carry
  | fuel + 1, lyr, carry, off =>
    if carry < lyr.length - 1 ∧ (lyr.getD carry defaultLyricEvent).offsetDivisions < off then
      advanceCarry fuel lyr (carry + 1) off
    else carry

/-- The harmony loop of `renderSingleMeasureLyrics`: thread the carry index
through the sorted harmonies, appending each chord text to the bucket of the
lyric index the carry stops at. -/
def chordBucketFold (lyr : List LyricEvent) :
    List HarmonyEvent → Nat → (Nat → List String) → (Nat → List String)
  | [], _, bucket => bucket
  | h :: hs, carry, bucket =>
    let carry2 := advanceCarry lyr.length lyr carry h.offsetDivisions
    chordBucketFold lyr hs carry2
      (fun i => if i = carry2 then bucket i ++ [h.chordText] else bucket i)

/-- `renderSingleMeasureLyrics(measure, lyricEvents, options)`. -/
def renderSingleMeasureLyrics (measure : MeasureData) (lyricEvents : List LyricEvent)
    (options : ConvertOptions) : String :=
  if lyricEvents.isEmpty then
    match measure.harmonies.head? with
    | some h => "[" ++ h.chordText ++ "]"
    | none => ""
  else
    let sortedLyrics := sortByOffset (·.offsetDivisions) lyricEvents
    let sortedHarmonies := sortByOffset (·.offsetDivisions) measure.harmonies
    let bucket := chordBucketFold sortedLyrics sortedHarmonies 0 (fun _ => [])
    let tokens := (List.range sortedLyrics.length).map fun i =>
      let lyric := sortedLyrics.getD i defaultLyricEvent
      let pfx := formatChordPrefix (bucket i) options.chordBracketStyle
      let sfx :=
        if lyric.syllabic = some .begin ∨ lyric.syllabic = some .middle then "-" else ""
      pfx ++ lyric.text ++ sfx
    let joined := String.intercalate " " tokens
    if options.normalizeWhitespace then normWs joined else joined

/-- Digits-prefix value for `Number.parseInt(text, 10)`. -/
def natOfDigits (l : List Char) : Nat :=
  l.foldl (fun acc c => acc * 10 + (c.toNat - '0'.toNat)) 0

/-- JS `Number.parseInt(text, 10)` (`none` for NaN): skip whitespace, parse an
optional sign and a non-empty digit prefix. -/
def parseIntPrefix (l : List Char) : Option Int :=
  let l1 := l.dropWhile isJsWs
  match l1 with
  | '-' :: rest =>
    let ds := rest.takeWhile isDigitChar
    if ds.isEmpty then Option.none else some (-(natOfDigits ds : Int))
  | '+' :: rest =>
    let ds := rest.takeWhile isDigitChar
    if ds.isEmpty then Option.none else some (natOfDigits ds : Int)
  | _ =>
    let ds := l1.takeWhile isDigitChar
    if ds.isEmpty then Option.none else some (natOfDigits ds : Int)

/-- Time-signature fallback of `resolveGridSlotsPerMeasure`: numerator of
`timeSignature.split("/")[0]`, else 4. -/
def gridSlotsFromTime : Option String → Int
  | Option.none => 4
  | some ts =>
    match parseIntPrefix (ts.data.takeWhile (· ≠ '/')) with
    | some beats => if beats ≤ 0 then 4 else beats
    | Option.none => 4

/-- `resolveGridSlotsPerMeasure(options, timeSignature)`. -/
def resolveGridSlotsPerMeasure (options : ConvertOptions) (timeSignature : Option String) :
    Int :=
  match options.gridSlotsPerMeasure with
  | some configuredSlots =>
    if 0 < configuredSlots then configuredSlots else gridSlotsFromTime timeSignature
  | Option.none => gridSlotsFromTime timeSignature

/-- Slot index of one harmony in `renderGrid`:
`Math.floor(offset / Math.max(1, duration) * N)` when `duration > 0` (else 0),
clamped to `[0, N-1]`.  The float expression is exact-rational here;
`⌊offset * N / max 1 duration⌋` is written with `Int.fdiv` (floor division),
see `gridSlotIndex_floor` for the equivalence with the ℚ floor. -/
def gridSlotIndex (slotsPerMeasure : Int) (duration : Int) (offset : Int) : Int :=
  let raw : Int :=
    if 0 < duration then Int.fdiv (offset * slotsPerMeasure) (max 1 duration) else 0
  max 0 (min (slotsPerMeasure - 1) raw)

/-- One iteration of the harmony loop of `renderGrid`: a harmony landing on an
occupied slot is dropped and counted as a collision, otherwise it fills the
slot with its bracketed chord text. -/
def gridMeasureStep (slotsPerMeasure : Int) (duration : Int) :
    List String × Nat → HarmonyEvent → List String × Nat
  | (slots, collisions), harmony =>
    let slotIndex := (gridSlotIndex slotsPerMeasure duration harmony.offsetDivisions).toNat
    if slots.getD slotIndex "" ≠ "." then (slots, collisions + 1)
    else (slots.set slotIndex ("[" ++ harmony.chordText ++ "]"), collisions)

/-- Grid text of one measure together with its collision count: slots start as
`"."`, sorted harmonies fill them, and the slots are joined with single
spaces. -/
def gridMeasureText (slotsPerMeasure : Int) (measure : MeasureData) : String × Nat :=
  let res := (sortByOffset (·.offsetDivisions) measure.harmonies).foldl
    (gridMeasureStep slotsPerMeasure measure.durationDivisions)
    (List.replicate slotsPerMeasure.toNat ".", 0)
  (String.intercalate " " res.1, res.2)

/-- Chunking loop of `emitWrappedBars`; fuel `≥ l.length` suffices for any
chunk size `≥ 1`. -/
def chunksF {α : Type} : Nat → Nat → List α → List (List α)
  | 0, _, _ => []
  | _, _, [] => []
  | fuel + 1, n, l => l.take n :: chunksF fuel n (l.drop n)

/-- `emitWrappedBars(measureTexts, options)`.  `options.barsPerLine || 4`
falls back on the falsy value 0. -/
def emitWrappedBars (measureTexts : List String) (options : ConvertOptions) :
    List String :=
  if measureTexts.isEmpty then []
  else
    let barsPerLine := max 1 (if options.barsPerLine = 0 then 4 else options.barsPerLine)
    let usePipes := options.barlineStyle = BarlineStyle.pipes
    let chunkSize : Nat :=
      if options.wrapPolicy = MeasureWrapPolicy.noWrap then measureTexts.length
      else barsPerLine.toNat
    (chunksF measureTexts.length chunkSize measureTexts).map fun chunk =>
      if usePipes then "| " ++ String.intercalate " | " chunk ++ " |"
      else String.intercalate "  " chunk

/-- `renderGrid(measures, options, warnings, timeSignature)`: returns the
rendered lines plus the warnings it pushes. -/
def renderGrid (measures : List MeasureData) (options : ConvertOptions)
    (timeSignature : Option String) : List String × List String :=
  let slotsPerMeasure := resolveGridSlotsPerMeasure options timeSignature
  let results := measures.map (gridMeasureText slotsPerMeasure)
  let measureTexts := results.map (·.1)
  let measuresWithMultipleChords := (measures.filter fun m => 1 < m.harmonies.length).length
  let totalCollisions := (results.map (·.2)).sum
  let warnings1 :=
    if 0 < measuresWithMultipleChords then
      ["Grid quantized to " ++ toString slotsPerMeasure ++ " slots/measure; " ++
        toString measuresWithMultipleChords ++ " measures contain multiple chord changes."]
    else []
  let warnings2 :=
    if 0 < totalCollisions then
      ["Chord collisions within same slot: " ++ toString totalCollisions ++
        ". Consider higher grid resolution."]
    else []
  (["\x7bstart_of_grid\x7d"] ++ emitWrappedBars measureTexts options ++ ["\x7bend_of_grid\x7d"],
    warnings1 ++ warnings2)

/-- `renderLyricsInline(measures, verseKeys, options)`. -/
def renderLyricsInline (measures : List MeasureData) (verseKeys : List String)
    (options : ConvertOptions) : List String :=
  (verseKeys.enum.map fun p =>
    let measureTexts := measures.map fun m =>
      renderSingleMeasureLyrics m ((aLookup m.lyricsByVerse p.2).getD []) options
    (if 1 < verseKeys.length then
        ["\x7bstart_of_verse\x7d", "\x7bcomment: Verse " ++ p.2 ++ "\x7d"]
      else [])
      ++ emitWrappedBars measureTexts options
      ++ (if 1 < verseKeys.length then
            ["\x7bend_of_verse\x7d"] ++ (if p.1 < verseKeys.length - 1 then [""] else [])
          else [])).flatten

/-- `resolveMeasureOrder(measures, options, warnings, diagnostics)`: returns
the measure order plus the warnings it pushes.  `endingsFound` is the
diagnostics field computed by the caller. -/
def resolveMeasureOrder (measures : List MeasureData) (options : ConvertOptions)
    (endingsFound : Nat) : List Nat × List String :=
  let baseOrder := measures.map (·.measureIndex)
  if options.repeatStrategy ≠ RepeatStrategy.simpleUnroll then (baseOrder, [])
  else if 0 < endingsFound then (baseOrder, ["unsupported endings"])
  else
    match measures.findIdx? (·.repeatStart) with
    | Option.none => (baseOrder, [])
    | some startIdx =>
      match measures.enum.find? (fun p => decide (startIdx < p.1) && p.2.repeatEnd) with
      | Option.none => (baseOrder, [])
      | some p =>
        let endIdx := p.1
        (baseOrder.take (endIdx + 1)
          ++ (baseOrder.drop startIdx).take (endIdx + 1 - startIdx)
          ++ baseOrder.drop (endIdx + 1), [])

structure ParsedMetadata where
  title : Option String := Option.none
  composer : Option String := Option.none
  key : Option String := Option.none
  time : Option String := Option.none
deriving DecidableEq

/-- The parsed MusicXML document, abstracted as the values the extraction
helpers (`parseMetadata`, `selectLyricPart`, `buildMeasureData`) produce from
it; a `DOMParser` `parsererror` is modelled as `Option.none` at the call
site. -/
structure Score where
  metadata : ParsedMetadata
  partsCount : Nat
  selectedLyricPartId : Option String
  measures : List MeasureData
deriving DecidableEq

/-- `ConvertOutput` restricted to the fields the claims are about (the
diagnostics record is omitted; `endingsFound` and friends are computed
inline). -/
structure ConvertOutput where
  chordPro : String
  warnings : List String
  error : Option String
deriving DecidableEq

/-- Deduplicate preserving first-seen order (JS `Set` insertion order). -/
def dedupAux : List String → List String → List String
  | [], _ => []
  | x :: xs, seen =>
    if seen.contains x then dedupAux xs seen else x :: dedupAux xs (x :: seen)

/-- Lexicographic char-code comparison. -/
def lexLe : List Char → List Char → Bool
  | [], _ => true
  | _ :: _, [] => false
  | a :: as, b :: bs =>
    if a.toNat < b.toNat then true
    else if b.toNat < a.toNat then false
    else lexLe as bs

/-- `localeCompare(…, { numeric: true })` modelled on the digit-string verse
keys the engine produces: all-digit keys compare numerically, otherwise by
char codes. -/
def verseKeyLe (a b : String) : Bool :=
  if a.data.all isDigitChar && !a.data.isEmpty && b.data.all isDigitChar && !b.data.isEmpty then
    decide (natOfDigits a.data ≤ natOfDigits b.data)
  else lexLe a.data b.data

/-- Strict form of `verseKeyLe`: the verse-key comparator
`(a, b) => a.localeCompare(b, undefined, ...)` is negative. -/
def verseKeyLt (a b : String) : Bool :=
  verseKeyLe a b && !verseKeyLe b a

/-- `convertMusicXmlToChordPro(input, options)`.  `parsed` is the outcome of
the `DOMParser` call on `input.xmlText` (`Option.none` ↔ `parsererror`);
`options` is the merged option record.  The body is total, so the defensive
`try/catch` of the source is unreachable and the `error` field is set only on
the parse-failure path. -/
def convertMusicXmlToChordPro (parsed : Option Score) (options : ConvertOptions) :
    ConvertOutput :=
  match parsed with
  | Option.none =>
    { chordPro := "\x7btitle: Untitled\x7d\n% Failed to parse MusicXML.",
      warnings := [], error := some "MusicXML parser error" }
  | some score =>
    let measures := score.measures
    let buildWarnings := (measures.filter fun m =>
        !m.endings.isEmpty && options.repeatStrategy = RepeatStrategy.simpleUnroll).map
      fun _ => "unsupported endings"
    let versesDetected := stableSort verseKeyLt (dedupAux
      (measures.foldl (fun acc m =>
        acc ++ ((m.lyricsByVerse.filter fun p => !p.2.isEmpty).map (·.1))) []) [])
    let hasAnyLyrics := measures.any fun m => m.lyricsByVerse.any fun p => !p.2.isEmpty
    let hasAnyHarmony := measures.any fun m => !m.harmonies.isEmpty
    let repeatMarkersFound := (measures.filter fun m => m.repeatStart || m.repeatEnd).length
    let endingsFound := (measures.map (·.endings.length)).sum
    let orderRes := resolveMeasureOrder measures options endingsFound
    let orderedMeasures := orderRes.1.filterMap fun i => measures.get? i
    let formatModeResolved : ResolvedFormatMode :=
      match options.formatMode with
      | .auto => if hasAnyLyrics then .lyricsInline else .gridOnly
      | .lyricsInline => .lyricsInline
      | .gridOnly => .gridOnly
    let warnHarmony := if !hasAnyHarmony then ["no harmony found"] else []
    let warnLyrics :=
      if !hasAnyLyrics && formatModeResolved ≠ ResolvedFormatMode.gridOnly then
        ["no lyrics found"]
      else []
    let metaLines : List String :=
      if options.metadataPolicy = MetadataPolicy.emit then
        (match score.metadata.title with
         | some t => ["\x7btitle: " ++ t ++ "\x7d"]
         | Option.none => []) ++
        (match score.metadata.composer with
         | some c => ["\x7bcomposer: " ++ c ++ "\x7d"]
         | Option.none => []) ++
        (match options.keyPolicy, score.metadata.key with
         | KeySignaturePolicy.emitIfKnown, some k => ["\x7bkey: " ++ k ++ "\x7d"]
         | _, _ => []) ++
        (match options.timePolicy, score.metadata.time with
         | TimeSignaturePolicy.emitIfKnown, some t => ["\x7btime: " ++ t ++ "\x7d"]
         | _, _ => [])
      else []
    let renderRes : List String × List String :=
      match formatModeResolved with
      | .lyricsInline =>
        let verseKeys := if 0 < versesDetected.length then versesDetected else ["1"]
        (renderLyricsInline orderedMeasures verseKeys options, [])
      | .gridOnly => renderGrid orderedMeasures options score.metadata.time
    let lines := metaLines ++
      (if 0 < metaLines.length ∧ 0 < renderRes.1.length then [""] else []) ++ renderRes.1
    let annotate := options.repeatStrategy = RepeatStrategy.none ∧
      0 < repeatMarkersFound ∧ options.annotateUnexpandedRepeats = true
    let lines2 := lines ++
      (if annotate then ["% Repeats in the original score are not expanded."] else [])
    let warnRepeat := if annotate then ["repeats present but not expanded"] else []
    let finalLines := if lines2.isEmpty then ["\x7btitle: Untitled\x7d"] else lines2
    { chordPro := String.intercalate "\n" finalLines,
      warnings := buildWarnings ++ orderRes.2 ++ warnHarmony ++ warnLyrics ++
        renderRes.2 ++ warnRepeat,
      error := Option.none }

/-- Closed form of the carry loop for a single scan from index 0: the first
index whose lyric offset is at or after `off`, capped at the final index. -/
def firstAtOrAfter : List LyricEvent → Int → Nat
  | [], _ => 0
  | [_], _ => 0
  | e :: rest, off =>
    if off ≤ e.offsetDivisions then 0 else firstAtOrAfter rest off + 1

end Convert

/-! ### Supporting lemmas about the transposer -/

namespace ChordChart

theorem idxOf?_spec {α : Type} [DecidableEq α] (d : α) :
    ∀ (l : List α) (x : α) (i : Nat), idxOf? l x = some i →
      i < l.length ∧ l.getD i d = x := by
  intro l
  induction l with
  | nil => intro x i h; simp [idxOf?] at h
  | cons a as ih =>
    intro x i h
    by_cases hax : a = x
    · simp [idxOf?, hax] at h
      subst h
      simpa using hax
    · simp [idxOf?, hax] at h
      obtain ⟨j, hj, hji⟩ := h
      obtain ⟨h1, h2⟩ := ih x j hj
      subst hji
      exact ⟨by simpa using h1, by simpa using h2⟩

theorem lastIdxOf_lt : ∀ (l : List Char) (c : Char) (i : Nat),
    lastIdxOf l c = some i → i < l.length := by
  intro l
  induction l with
  | nil => intro c i h; simp [lastIdxOf] at h
  | cons a as ih =>
    intro c i h
    simp only [lastIdxOf] at h
    cases hrec : lastIdxOf as c with
    | some j =>
      rw [hrec] at h
      cases h
      have := ih c j hrec
      simp
      omega
    | none =>
      rw [hrec] at h
      by_cases hac : a = c
      · simp [hac] at h; subst h; simp
      · simp [hac] at h

theorem lastIdxOf_none_of_not_mem : ∀ (l : List Char) (c : Char),
    (∀ x ∈ l, x ≠ c) → lastIdxOf l c = none := by
  intro l
  induction l with
  | nil => intro c _; rfl
  | cons a as ih =>
    intro c h
    simp only [lastIdxOf]
    rw [ih c (fun x hx => h x (List.mem_cons_of_mem a hx))]
    simp [h a (List.mem_cons_self a as)]

theorem not_mem_of_lastIdxOf_none : ∀ (l : List Char) (c : Char),
    lastIdxOf l c = none → ∀ x ∈ l, x ≠ c := by
  intro l
  induction l with
  | nil => intro c _ x hx; simp at hx
  | cons a as ih =>
    intro c h x hx
    simp only [lastIdxOf] at h
    cases hrec : lastIdxOf as c with
    | some j => rw [hrec] at h; cases h
    | none =>
      rw [hrec] at h
      by_cases hac : a = c
      · simp [hac] at h
      · rcases List.mem_cons.mp hx with rfl | hx2
        · exact hac
        · exact ih c hrec x hx2

theorem lastIdxOf_append (xs ys : List Char) (c : Char) (h : ∀ x ∈ ys, x ≠ c) :
    lastIdxOf (xs ++ c :: ys) c = some xs.length := by
  induction xs with
  | nil =>
    simp only [List.nil_append, lastIdxOf]
    rw [lastIdxOf_none_of_not_mem ys c h]
    simp
  | cons a as ih =>
    rw [show (a :: as) ++ c :: ys = a :: (as ++ c :: ys) from rfl]
    simp only [lastIdxOf]
    rw [ih]
    simp

theorem lastIdxOf_decomp : ∀ (l : List Char) (c : Char) (i : Nat),
    lastIdxOf l c = some i →
      l = l.take i ++ c :: l.drop (i + 1) ∧ ∀ x ∈ l.drop (i + 1), x ≠ c := by
  intro l
  induction l with
  | nil => intro c i h; simp [lastIdxOf] at h
  | cons a as ih =>
    intro c i h
    simp only [lastIdxOf] at h
    cases hrec : lastIdxOf as c with
    | some j =>
      rw [hrec] at h
      cases h
      obtain ⟨h1, h2⟩ := ih c j hrec
      constructor
      · simpa [List.take, List.drop] using congrArg (a :: ·) h1
      · simpa [List.drop] using h2
    | none =>
      rw [hrec] at h
      by_cases hac : a = c
      · simp [hac] at h
        subst h
        subst hac
        exact ⟨by simp, not_mem_of_lastIdxOf_none as a hrec⟩
      · simp [hac] at h

theorem matchRoot_spec : ∀ (l root rest : List Char),
    matchRoot l = some (root, rest) →
      root ++ rest = l ∧ rest.all (· ≠ '\n') = true ∧
      ∃ c, ('A' ≤ c ∧ c ≤ 'G') ∧
        (root = [c] ∨ ∃ a, (a = '#' ∨ a = 'b') ∧ root = [c, a]) := by
  intro l root rest h
  match l with
  | [] => simp [matchRoot] at h
  | [c] =>
    simp only [matchRoot] at h
    by_cases hc : 'A' ≤ c ∧ c ≤ 'G'
    · rw [if_pos hc] at h
      simp at h
      obtain ⟨rfl, rfl⟩ := h
      exact ⟨rfl, by simp, c, hc, Or.inl rfl⟩
    · rw [if_neg hc] at h; cases h
  | c :: a :: rest2 =>
    simp only [matchRoot] at h
    by_cases hc : 'A' ≤ c ∧ c ≤ 'G'
    · rw [if_pos hc] at h
      by_cases hacc : a = '#' ∨ a = 'b'
      · rw [if_pos hacc] at h
        by_cases hnl : rest2.all (· ≠ '\n') = true
        · rw [if_pos hnl] at h
          simp at h
          obtain ⟨rfl, rfl⟩ := h
          exact ⟨rfl, hnl, c, hc, Or.inr ⟨a, hacc, rfl⟩⟩
        · rw [if_neg hnl] at h; cases h
      · rw [if_neg hacc] at h
        by_cases hnl : ((a :: rest2).all (· ≠ '\n')) = true
        · rw [if_pos hnl] at h
          simp at h
          obtain ⟨rfl, rfl⟩ := h
          exact ⟨rfl, hnl, c, hc, Or.inl rfl⟩
        · rw [if_neg hnl] at h; cases h
    · rw [if_neg hc] at h; cases h

theorem matchRoot_one (c : Char) (rest : List Char) (h1 : 'A' ≤ c) (h2 : c ≤ 'G')
    (h3 : rest.all (· ≠ '\n') = true)
    (h4 : ∀ a tl, rest = a :: tl → ¬(a = '#' ∨ a = 'b')) :
    matchRoot (c :: rest) = some ([c], rest) := by
  match rest with
  | [] => simp [matchRoot, h1, h2]
  | a :: tl =>
    simp only [matchRoot]
    rw [if_pos ⟨h1, h2⟩, if_neg (h4 a tl rfl), if_pos (by exact h3)]

theorem matchRoot_sharp (c : Char) (rest : List Char) (h1 : 'A' ≤ c) (h2 : c ≤ 'G')
    (h3 : rest.all (· ≠ '\n') = true) :
    matchRoot (c :: '#' :: rest) = some ([c, '#'], rest) := by
  simp only [matchRoot]
  rw [if_pos ⟨h1, h2⟩]
  have h4 : '\n' ∉ rest := by
    intro hmem
    have h5 := List.all_eq_true.mp h3 _ hmem
    simp at h5
  simp [h3, h4]

theorem rootShapeOk_spec (l : List Char) (h : rootShapeOk l = true) :
    (∃ c, ('A' ≤ c ∧ c ≤ 'G') ∧ l = [c]) ∨
    (∃ c, ('A' ≤ c ∧ c ≤ 'G') ∧ l = [c, '#']) := by
  match l with
  | [] => simp [rootShapeOk] at h
  | [c] =>
    simp only [rootShapeOk, Bool.and_eq_true, decide_eq_true_eq] at h
    exact Or.inl ⟨c, h, rfl⟩
  | [c, a] =>
    simp only [rootShapeOk, Bool.and_eq_true, decide_eq_true_eq] at h
    obtain ⟨⟨h1, h2⟩, h3⟩ := h
    subst h3
    exact Or.inr ⟨c, ⟨h1, h2⟩, rfl⟩
  | _ :: _ :: _ :: _ => simp [rootShapeOk] at h

theorem chromatic_getD_shape : ∀ j, j < 12 →
    rootShapeOk (CHROMATIC.getD j "").data = true := by decide

theorem chromatic_enharmonic_none : ∀ j, j < 12 →
    ENHARMONIC.lookup (CHROMATIC.getD j "") = none := by decide

theorem chromatic_idxOf_getD : ∀ j, j < 12 →
    idxOf? CHROMATIC (CHROMATIC.getD j "") = some j := by decide

theorem chromatic_no_slash : ∀ j, j < 12 →
    (CHROMATIC.getD j "").data.all (· ≠ '/') = true := by decide

theorem chromatic_ne_nil : ∀ j, j < 12 → (CHROMATIC.getD j "").data ≠ [] := by decide

theorem chromatic_no_newline : ∀ j, j < 12 →
    (CHROMATIC.getD j "").data.all (· ≠ '\n') = true := by decide

theorem transposeChordF_nil : ∀ (f : Nat) (s : Int), transposeChordF f [] s = [] := by
  intro f s
  match f with
  | 0 => rfl
  | f + 1 =>
    simp only [transposeChordF]
    by_cases hs : s = 0
    · simp [hs]
    · simp [hs, lastIdxOf, transposeFlat, matchRoot]

theorem transposeChordF_zero : ∀ (f : Nat) (l : List Char), transposeChordF f l 0 = l := by
  intro f l
  match f with
  | 0 => rfl
  | f + 1 => simp [transposeChordF]

theorem transposeChordL_zero (l : List Char) : transposeChordL l 0 = l :=
  transposeChordF_zero _ l

theorem transposeChordF_fuel : ∀ (f₁ : Nat) (l : List Char) (s : Int) (f₂ : Nat),
    l.length ≤ f₁ → l.length ≤ f₂ →
    transposeChordF f₁ l s = transposeChordF f₂ l s := by
  intro f₁
  induction f₁ using Nat.strong_induction_on with
  | _ f₁ ih =>
    intro l s f₂ h1 h2
    match f₁, f₂ with
    | 0, f₂ =>
      have hl : l = [] := List.length_eq_zero.mp (Nat.le_zero.mp h1)
      subst hl
      rw [transposeChordF_nil, transposeChordF_nil]
    | n + 1, 0 =>
      have hl : l = [] := List.length_eq_zero.mp (Nat.le_zero.mp h2)
      subst hl
      rw [transposeChordF_nil, transposeChordF_nil]
    | n + 1, m + 1 =>
      simp only [transposeChordF]
      by_cases hs : s = 0
      · simp [hs]
      · simp only [if_neg hs]
        cases hlast : lastIdxOf l '/' with
        | none => simp only [hlast]
        | some i =>
          simp only [hlast]
          by_cases hi : 0 < i
          · have hilt := lastIdxOf_lt l '/' i hlast
            have ht : (l.take i).length = i := by
              simp [List.length_take]
              omega
            have hd : (l.drop (i + 1)).length = l.length - (i + 1) := by
              simp [List.length_drop]
            rw [if_pos hi, if_pos hi,
              ih n (by omega) (l.take i) s m (by omega) (by omega),
              ih n (by omega) (l.drop (i + 1)) s m (by omega) (by omega)]
          · rw [if_neg hi, if_neg hi]

theorem transposeChordL_eq (l : List Char) (s : Int) :
    transposeChordL l s =
      if s = 0 then l
      else
        match lastIdxOf l '/' with
        | some i =>
          if 0 < i then
            transposeChordL (l.take i) s ++ '/' :: transposeChordL (l.drop (i + 1)) s
          else transposeFlat l s
        | none => transposeFlat l s := by
  match l with
  | [] =>
    rw [show transposeChordL [] s = [] from transposeChordF_nil 0 s]
    by_cases hs : s = 0
    · simp [hs]
    · simp [hs, lastIdxOf, transposeFlat, matchRoot]
  | x :: xs =>
    show transposeChordF (xs.length + 1) (x :: xs) s = _
    simp only [transposeChordF]
    by_cases hs : s = 0
    · simp [hs]
    · simp only [if_neg hs]
      cases hlast : lastIdxOf (x :: xs) '/' with
      | none => simp only [hlast]
      | some i =>
        simp only [hlast]
        by_cases hi : 0 < i
        · have hilt := lastIdxOf_lt (x :: xs) '/' i hlast
          simp only [List.length_cons] at hilt
          rw [if_pos hi, if_pos hi,
            transposeChordF_fuel xs.length ((x :: xs).take i) s ((x :: xs).take i).length
              (by simp [List.length_take]; omega) (le_refl _),
            transposeChordF_fuel xs.length ((x :: xs).drop (i + 1)) s
              ((x :: xs).drop (i + 1)).length (by simp [List.length_drop]) (le_refl _)]
          rfl
        · rw [if_neg hi, if_neg hi]

theorem canonicalF_nil : ∀ f, canonicalF f [] = true := by
  intro f
  match f with
  | 0 => rfl
  | f + 1 => simp [canonicalF, lastIdxOf, canonicalFlat, matchRoot]

theorem canonicalF_fuel : ∀ (f₁ : Nat) (l : List Char) (f₂ : Nat),
    l.length ≤ f₁ → l.length ≤ f₂ → canonicalF f₁ l = canonicalF f₂ l := by
  intro f₁
  induction f₁ using Nat.strong_induction_on with
  | _ f₁ ih =>
    intro l f₂ h1 h2
    match f₁, f₂ with
    | 0, f₂ =>
      have hl : l = [] := List.length_eq_zero.mp (Nat.le_zero.mp h1)
      subst hl
      rw [canonicalF_nil, canonicalF_nil]
    | n + 1, 0 =>
      have hl : l = [] := List.length_eq_zero.mp (Nat.le_zero.mp h2)
      subst hl
      rw [canonicalF_nil, canonicalF_nil]
    | n + 1, m + 1 =>
      simp only [canonicalF]
      cases hlast : lastIdxOf l '/' with
      | none => simp only [hlast]
      | some i =>
        simp only [hlast]
        by_cases hi : 0 < i
        · have hilt := lastIdxOf_lt l '/' i hlast
          rw [if_pos hi, if_pos hi,
            ih n (by omega) (l.take i) m (by simp [List.length_take]; omega)
              (by simp [List.length_take]; omega),
            ih n (by omega) (l.drop (i + 1)) m (by simp [List.length_drop]; omega)
              (by simp [List.length_drop]; omega)]
        · rw [if_neg hi, if_neg hi]

theorem canonicalL_eq (l : List Char) :
    canonicalL l =
      match lastIdxOf l '/' with
      | some i =>
        if 0 < i then canonicalL (l.take i) && canonicalL (l.drop (i + 1))
        else canonicalFlat l
      | none => canonicalFlat l := by
  match l with
  | [] => simp [canonicalL, canonicalF_nil, lastIdxOf, canonicalFlat, matchRoot]
  | x :: xs =>
    show canonicalF (xs.length + 1) (x :: xs) = _
    simp only [canonicalF]
    cases hlast : lastIdxOf (x :: xs) '/' with
    | none => simp only [hlast]
    | some i =>
      simp only [hlast]
      by_cases hi : 0 < i
      · have hilt := lastIdxOf_lt (x :: xs) '/' i hlast
        simp only [List.length_cons] at hilt
        rw [if_pos hi, if_pos hi,
          canonicalF_fuel xs.length ((x :: xs).take i) ((x :: xs).take i).length
            (by simp [List.length_take]; omega) (le_refl _),
          canonicalF_fuel xs.length ((x :: xs).drop (i + 1)) ((x :: xs).drop (i + 1)).length
            (by simp [List.length_drop]) (le_refl _)]
        rfl
      · rw [if_neg hi, if_neg hi]

theorem string_mk_data (s : String) : String.mk s.data = s := rfl

theorem transposeRoot_cases (r : String) (s : Int) :
    transposeRoot r s = r ∨ ∃ j, j < 12 ∧ transposeRoot r s = CHROMATIC.getD j "" := by
  by_cases hs : s = 0
  · left
    simp [transposeRoot, hs]
  · cases hidx : idxOf? CHROMATIC ((ENHARMONIC.lookup r).getD r) with
    | none =>
      left
      simp [transposeRoot, hs, hidx]
    | some idx =>
      right
      refine ⟨((((idx : Int) + s) % 12 + 12) % 12).toNat, by omega, ?_⟩
      simp [transposeRoot, hs, hidx]

theorem transposeRoot_canonical (r : String) (idx : Nat) (s : Int)
    (hidx : idxOf? CHROMATIC r = some idx) (hs : s ≠ 0) :
    transposeRoot r s = CHROMATIC.getD (((idx : Int) + s) % 12).toNat "" := by
  obtain ⟨hlt, hget⟩ := idxOf?_spec "" CHROMATIC r idx hidx
  have h12 : idx < 12 := by
    have hCl : CHROMATIC.length = 12 := rfl
    omega
  unfold transposeRoot
  rw [if_neg hs]
  have henh : ENHARMONIC.lookup r = none := by
    rw [← hget]
    exact chromatic_enharmonic_none idx h12
  rw [henh]
  simp only [Option.getD_none]
  rw [hidx]
  simp only []
  have hixeq : ((((idx : Int) + s) % 12 + 12) % 12).toNat = (((idx : Int) + s) % 12).toNat := by
    omega
  rw [hixeq]

theorem transposeFlat_no_slash (l : List Char) (s : Int) (h : ∀ x ∈ l, x ≠ '/') :
    ∀ x ∈ transposeFlat l s, x ≠ '/' := by
  unfold transposeFlat
  cases hm : matchRoot l with
  | none => exact h
  | some p =>
    obtain ⟨root, rest⟩ := p
    intro x hx
    obtain ⟨heq, -, -⟩ := matchRoot_spec l root rest hm
    rcases List.mem_append.mp hx with hx1 | hx2
    · rcases transposeRoot_cases (String.mk root) s with hcase | ⟨j, hj, hcase⟩
      · rw [hcase] at hx1
        exact h x (by rw [← heq]; exact List.mem_append_left _ hx1)
      · rw [hcase] at hx1
        have hns := chromatic_no_slash j hj
        intro hxe
        subst hxe
        have := List.all_eq_true.mp hns _ hx1
        simp at this
    · exact h x (by rw [← heq]; exact List.mem_append_right _ hx2)

theorem transposeChordF_no_slash (f : Nat) (l : List Char) (s : Int)
    (h : ∀ x ∈ l, x ≠ '/') : ∀ x ∈ transposeChordF f l s, x ≠ '/' := by
  match f with
  | 0 => exact h
  | f + 1 =>
    simp only [transposeChordF]
    by_cases hs : s = 0
    · rw [if_pos hs]; exact h
    · rw [if_neg hs, lastIdxOf_none_of_not_mem l '/' h]
      exact transposeFlat_no_slash l s h

theorem transposeFlat_ne_nil (l : List Char) (s : Int) (h : l ≠ []) :
    transposeFlat l s ≠ [] := by
  unfold transposeFlat
  cases hm : matchRoot l with
  | none => exact h
  | some p =>
    obtain ⟨root, rest⟩ := p
    show (transposeRoot (String.mk root) s).data ++ rest ≠ []
    rcases transposeRoot_cases (String.mk root) s with hcase | ⟨j, hj, hcase⟩
    · rw [hcase]
      obtain ⟨heq, -, c, -, hshape⟩ := matchRoot_spec l root rest hm
      rcases hshape with rfl | ⟨a, -, rfl⟩ <;> simp
    · rw [hcase]
      have hne := chromatic_ne_nil j hj
      intro hnil
      exact hne (List.append_eq_nil.mp hnil).1

theorem transposeChordF_ne_nil (f : Nat) (l : List Char) (s : Int) (h : l ≠ []) :
    transposeChordF f l s ≠ [] := by
  match f with
  | 0 => exact h
  | f + 1 =>
    simp only [transposeChordF]
    by_cases hs : s = 0
    · rw [if_pos hs]; exact h
    · rw [if_neg hs]
      cases hlast : lastIdxOf l '/' with
      | none => exact transposeFlat_ne_nil l s h
      | some i =>
        simp only []
        by_cases hi : 0 < i
        · rw [if_pos hi]; simp
        · rw [if_neg hi]; exact transposeFlat_ne_nil l s h

theorem matchRoot_slash_head (tl : List Char) : matchRoot ('/' :: tl) = none := by
  match tl with
  | [] => simp only [matchRoot]; rw [if_neg (by decide)]
  | a :: tl2 => simp only [matchRoot]; rw [if_neg (by decide)]

/-- A component that fails the root regex and has no splittable slash is inert:
`transposeChord` returns it unchanged for every step count. -/
theorem transposeChordL_inert (l : List Char) (hm : matchRoot l = none)
    (hsl : ∀ i, lastIdxOf l '/' = some i → i = 0) :
    ∀ s, transposeChordL l s = l := by
  intro s
  rw [transposeChordL_eq]
  by_cases hs : s = 0
  · simp [hs]
  · rw [if_neg hs]
    cases hlast : lastIdxOf l '/' with
    | none =>
      simp only []
      unfold transposeFlat
      rw [hm]
    | some i =>
      have hi0 := hsl i hlast
      subst hi0
      simp only []
      rw [if_neg (by omega)]
      unfold transposeFlat
      rw [hm]

/-- Core composition lemma: on canonical chords (character-list view),
transposing by `a` then by `b` equals transposing by `a + b` in one step. -/
theorem transposeChordL_comp : ∀ (n : Nat) (l : List Char), l.length ≤ n →
    ∀ a b : Int, canonicalL l = true →
    transposeChordL (transposeChordL l a) b = transposeChordL l (a + b) := by
  intro n
  induction n using Nat.strong_induction_on with
  | _ n ih =>
    intro l hln a b hcan
    by_cases ha : a = 0
    · subst ha
      rw [show transposeChordL l 0 = l from transposeChordF_zero _ l, Int.zero_add]
    by_cases hb : b = 0
    · subst hb
      rw [show transposeChordL (transposeChordL l a) 0 = transposeChordL l a from
        transposeChordF_zero _ _, Int.add_zero]
    rw [transposeChordL_eq l a, if_neg ha]
    cases hlast : lastIdxOf l '/' with
    | some i =>
      simp only []
      by_cases hi : 0 < i
      · rw [if_pos hi]
        obtain ⟨hdecomp, hnos⟩ := lastIdxOf_decomp l '/' i hlast
        have hilt := lastIdxOf_lt l '/' i hlast
        have hulen : (l.take i).length = i := by
          simp [List.length_take]
          omega
        have hvlen : (l.drop (i + 1)).length = l.length - (i + 1) := by
          simp [List.length_drop]
        have hcansplit : canonicalL (l.take i) = true ∧ canonicalL (l.drop (i + 1)) = true := by
          have hc := canonicalL_eq l
          rw [hlast] at hc
          simp only [] at hc
          rw [if_pos hi, hcan] at hc
          have hc2 := hc.symm
          simp only [Bool.and_eq_true] at hc2
          exact hc2
        have hune : l.take i ≠ [] := by
          intro hnil
          rw [hnil] at hulen
          simp at hulen
          omega
        have hv'nos : ∀ x ∈ transposeChordL (l.drop (i + 1)) a, x ≠ '/' :=
          transposeChordF_no_slash _ _ a hnos
        have hu'ne : transposeChordL (l.take i) a ≠ [] :=
          transposeChordF_ne_nil _ _ a hune
        rw [transposeChordL_eq (transposeChordL (l.take i) a ++
            '/' :: transposeChordL (l.drop (i + 1)) a) b, if_neg hb,
          lastIdxOf_append _ _ '/' hv'nos]
        simp only []
        rw [if_pos (List.length_pos.mpr hu'ne), List.take_left]
        have hdropapp : (transposeChordL (l.take i) a ++
            '/' :: transposeChordL (l.drop (i + 1)) a).drop
              ((transposeChordL (l.take i) a).length + 1)
            = transposeChordL (l.drop (i + 1)) a := by
          rw [show transposeChordL (l.take i) a ++ '/' :: transposeChordL (l.drop (i + 1)) a
              = (transposeChordL (l.take i) a ++ ['/']) ++ transposeChordL (l.drop (i + 1)) a
              by simp,
            show (transposeChordL (l.take i) a).length + 1
              = (transposeChordL (l.take i) a ++ ['/']).length by simp,
            List.drop_left]
        rw [hdropapp]
        rw [ih i (by omega) (l.take i) (by omega) a b hcansplit.1,
          ih (l.length - (i + 1)) (by omega) (l.drop (i + 1)) (by omega) a b hcansplit.2]
        by_cases hab : a + b = 0
        · rw [hab, transposeChordL_zero, transposeChordL_zero, transposeChordL_zero]
          exact hdecomp.symm
        · rw [transposeChordL_eq l (a + b), if_neg hab, hlast]
          simp only []
          rw [if_pos hi]
      · have hi0 : i = 0 := by omega
        subst hi0
        rw [if_neg hi]
        obtain ⟨hdecomp, -⟩ := lastIdxOf_decomp l '/' 0 hlast
        have hl0 : l = '/' :: l.drop 1 := by simpa using hdecomp
        have hm : matchRoot l = none := by
          rw [hl0]
          exact matchRoot_slash_head _
        have hinert := transposeChordL_inert l hm
          (fun j hj => by rw [hlast] at hj; cases hj; rfl)
        rw [show transposeFlat l a = l by unfold transposeFlat; rw [hm],
          hinert b, hinert (a + b)]
    | none =>
      simp only []
      have hcflat : canonicalFlat l = true := by
        have hc := canonicalL_eq l
        rw [hlast] at hc
        simp only [] at hc
        rw [hcan] at hc
        exact hc.symm
      cases hm : matchRoot l with
      | none =>
        have hinert := transposeChordL_inert l hm
          (fun j hj => by rw [hlast] at hj; cases hj)
        rw [show transposeFlat l a = l by unfold transposeFlat; rw [hm],
          hinert b, hinert (a + b)]
      | some p =>
        obtain ⟨root, rest⟩ := p
        unfold canonicalFlat at hcflat
        rw [hm] at hcflat
        simp only [Bool.and_eq_true] at hcflat
        obtain ⟨hsome, hguard⟩ := hcflat
        obtain ⟨idx, hidx⟩ := Option.isSome_iff_exists.mp hsome
        obtain ⟨hlt, hget⟩ := idxOf?_spec "" CHROMATIC (String.mk root) idx hidx
        have h12 : idx < 12 := by
          have hCl : CHROMATIC.length = 12 := rfl
          omega
        obtain ⟨heq, hrestnl, c0, -, -⟩ := matchRoot_spec l root rest hm
        have hguard' : ∀ a tl, rest = a :: tl → ¬(a = '#' ∨ a = 'b') := by
          intro a tl hrest hbad
          rw [hrest] at hguard
          simp only [] at hguard
          rcases hbad with rfl | rfl <;> simp at hguard
        have hnoslash : ∀ x ∈ l, x ≠ '/' := not_mem_of_lastIdxOf_none l '/' hlast
        have hrestnos : ∀ x ∈ rest, x ≠ '/' := fun x hx =>
          hnoslash x (by rw [← heq]; exact List.mem_append_right _ hx)
        -- first transposition
        rw [show transposeFlat l a
            = (CHROMATIC.getD (((idx : Int) + a) % 12).toNat "").data ++ rest by
          unfold transposeFlat
          rw [hm]
          show (transposeRoot (String.mk root) a).data ++ rest = _
          rw [transposeRoot_canonical _ idx a hidx ha]]
        set j1 : Nat := (((idx : Int) + a) % 12).toNat with hj1def
        have hj1 : j1 < 12 := by omega
        have hrootnos := chromatic_no_slash j1 hj1
        have hwnos : ∀ x ∈ (CHROMATIC.getD j1 "").data ++ rest, x ≠ '/' := by
          intro x hx
          rcases List.mem_append.mp hx with hx1 | hx2
          · intro hxe
            subst hxe
            have := List.all_eq_true.mp hrootnos _ hx1
            simp at this
          · exact hrestnos x hx2
        -- second transposition
        rw [transposeChordL_eq _ b, if_neg hb, lastIdxOf_none_of_not_mem _ '/' hwnos]
        simp only []
        have hmw : matchRoot ((CHROMATIC.getD j1 "").data ++ rest)
            = some ((CHROMATIC.getD j1 "").data, rest) := by
          rcases rootShapeOk_spec _ (chromatic_getD_shape j1 hj1) with
            ⟨c, hc, hdata⟩ | ⟨c, hc, hdata⟩
          · rw [hdata]
            exact matchRoot_one c rest hc.1 hc.2 hrestnl hguard'
          · rw [hdata]
            exact matchRoot_sharp c rest hc.1 hc.2 hrestnl
        rw [show transposeFlat ((CHROMATIC.getD j1 "").data ++ rest) b
            = (CHROMATIC.getD (((j1 : Int) + b) % 12).toNat "").data ++ rest by
          unfold transposeFlat
          rw [hmw]
          show (transposeRoot (String.mk (CHROMATIC.getD j1 "").data) b).data ++ rest = _
          rw [string_mk_data,
            transposeRoot_canonical _ j1 b (chromatic_idxOf_getD j1 hj1) hb]]
        have hidxeq : (((j1 : Int) + b) % 12).toNat = (((idx : Int) + (a + b)) % 12).toNat := by
          omega
        rw [hidxeq]
        by_cases hab : a + b = 0
        · rw [hab, show transposeChordL l 0 = l from transposeChordF_zero _ l]
          rw [show (((idx : Int) + 0) % 12).toNat = idx by omega, hget]
          rw [show (String.mk root).data = root from rfl]
          exact heq
        · rw [transposeChordL_eq l (a + b), if_neg hab, hlast]
          unfold transposeFlat
          rw [hm]
          show _ = (transposeRoot (String.mk root) (a + b)).data ++ rest
          rw [transposeRoot_canonical _ idx (a + b) hidx hab]

end ChordChart

/-! ## Claim theorems about the transposer (C2, C9) -/

open ChordChart in
/-- C9: for every input string, including slash chords, transposing by zero
semitones returns the identical string: `transposeChord(chord, 0) == chord`. -/
theorem C9_transposeChord_zero_identity :
    ∀ chord : String, transposeChord chord 0 = chord := by
  intro chord
  cases chord with
  | mk data =>
    show String.mk (transposeChordF data.length data 0) = String.mk data
    rw [transposeChordF_zero]

open ChordChart in
/-- C2 counterexample: the transpose group property
`transposeChord(transposeChord(chord, a), b) == transposeChord(chord, a+b)`
fails for all chord strings: for the flat-spelled chord `"Bb"` with `a = 1`,
`b = -1`, the composition canonicalizes to the sharp spelling `"A#"` while the
single-step transpose by `0` returns `"Bb"` unchanged. -/
theorem C2_transposeChord_add_counterexample :
    ChordChart.transposeChord (ChordChart.transposeChord "Bb" 1) (-1)
      ≠ ChordChart.transposeChord "Bb" (1 + -1) := by decide

open ChordChart in
/-- C2 (amended): the group property
`transposeChord(transposeChord(chord, a), b) == transposeChord(chord, a+b)`
holds for all integers `a`, `b` on every chord string in canonical sharp form
(each slash component either fails the root regex and is inert, or has its
root spelled as one of the twelve sharp chromatic names with a quality suffix
not starting in an accidental character); mod-12 wraparound holds, e.g.
`transposeChord("B", 1) == "C"` and `transposeChord("C", -1) == "B"`. -/
theorem C2_transposeChord_add_of_canonical :
    (∀ (chord : String) (a b : Int), canonicalChord chord = true →
      transposeChord (transposeChord chord a) b = transposeChord chord (a + b)) ∧
    transposeChord "B" 1 = "C" ∧ transposeChord "C" (-1) = "B" := by
  refine ⟨?_, by decide, by decide⟩
  intro chord a b h
  cases chord with
  | mk data =>
    show String.mk (transposeChordL (transposeChordL data a) b)
      = String.mk (transposeChordL data (a + b))
    rw [transposeChordL_comp data.length data (le_refl _) a b h]

open ChordChart in
/-- Witness for the amended C2 theorem at the concrete slash chord
`"F#m7/C#"` with `a = 5`, `b = -5`. -/
theorem C2_transposeChord_add_of_canonical_witness :
    ChordChart.canonicalChord "F#m7/C#" = true ∧
    ChordChart.transposeChord (ChordChart.transposeChord "F#m7/C#" 5) (-5)
      = ChordChart.transposeChord "F#m7/C#" (5 + -5) :=
  ⟨by decide, C2_transposeChord_add_of_canonical.1 "F#m7/C#" 5 (-5) (by decide)⟩

/-! ## Supporting lemmas about the parsers -/

namespace ChordProParser

open ChordModel

theorem flushSection_ok (doc : ChordChartDocument) (sec : ChartSection)
    (h : sectionsOk doc = true) : sectionsOk (flushSection doc sec) = true := by
  unfold flushSection
  by_cases hne : (sec.lines.filter fun l => !l.tokens.isEmpty).isEmpty
  · simp only [if_pos hne]
    exact h
  · simp only [if_neg hne]
    unfold sectionsOk at h ⊢
    simp only [List.all_append, Bool.and_eq_true]
    refine ⟨h, ?_⟩
    simp only [List.all_cons, List.all_nil, Bool.and_true]
    have hne' : (sec.lines.filter fun l => !l.tokens.isEmpty) ≠ [] := by
      intro hnil
      rw [hnil] at hne
      simp at hne
    obtain ⟨l0, hl0⟩ := List.exists_mem_of_ne_nil _ hne'
    exact List.any_eq_true.mpr ⟨l0, hl0, (List.mem_filter.mp hl0).2⟩

theorem setMetaField_sections (doc : ChordChartDocument) (f : MetaField) (v : String) :
    (setMetaField doc f v).sections = doc.sections := by
  cases f <;> rfl

theorem directiveRest_ok (st : ParseState) (key : String) (value : Option String)
    (h : sectionsOk st.doc = true) : sectionsOk (directiveRest st key value).doc = true := by
  unfold directiveRest
  split
  · exact flushSection_ok _ _ h
  · split
    · exact flushSection_ok _ _ h
    · split
      · exact h
      · exact h

theorem parseChordProLine_ok (st : ParseState) (line : List Char)
    (h : sectionsOk st.doc = true) :
    sectionsOk (parseChordProLine st line).doc = true := by
  unfold parseChordProLine
  simp only []
  split
  · exact h
  · split
    · exact h
    · split
      · split
        · split
          · show sectionsOk (setMetaField st.doc _ _) = true
            unfold sectionsOk
            rw [setMetaField_sections]
            exact h
          · exact directiveRest_ok _ _ _ h
        · exact directiveRest_ok _ _ _ h
        · exact directiveRest_ok _ _ _ h
      · split
        · exact flushSection_ok _ _ h
        · split
          · split
            · exact h
            · exact h
          · exact h

theorem foldl_parse_ok : ∀ (lines : List (List Char)) (st : ParseState),
    sectionsOk st.doc = true →
    sectionsOk (lines.foldl parseChordProLine st).doc = true := by
  intro lines
  induction lines with
  | nil => intro st h; exact h
  | cons l ls ih =>
    intro st h
    exact ih _ (parseChordProLine_ok st l h)

theorem matchDirective_head (l : List Char) (p : List Char × Option (List Char))
    (h : matchDirective l = some p) : ∃ rest, l = '{' :: rest := by
  match l with
  | [] => simp [matchDirective] at h
  | c :: rest =>
    by_cases hc : c = '{'
    · subst hc
      exact ⟨rest, rfl⟩
    · exfalso
      unfold matchDirective at h
      split at h
      · next heq =>
        rw [List.cons.injEq] at heq
        exact hc heq.1
      · cases h

theorem aLookup_isSome_mem {β : Type} : ∀ (l : List (String × β)) (k : String),
    (aLookup l k).isSome = true → k ∈ l.map Prod.fst := by
  intro l
  induction l with
  | nil => intro k h; simp [aLookup] at h
  | cons p rest ih =>
    intro k h
    obtain ⟨pk, pv⟩ := p
    unfold aLookup at h
    by_cases hk : pk = k
    · subst hk
      simp
    · rw [if_neg hk] at h
      simp only [List.map, List.mem_cons]
      exact Or.inr (ih k h)

theorem meta_key_inert (k : String) (h : (aLookup DIRECTIVE_META k).isSome = true) :
    aLookup SECTION_START k = none ∧ SECTION_END.contains k = false ∧
    k ≠ "comment" ∧ k ≠ "c" ∧ k ≠ "comment_italic" ∧ k ≠ "ci" := by
  have hmem := aLookup_isSome_mem _ _ h
  simp only [DIRECTIVE_META, List.map_cons, List.map_nil] at hmem
  fin_cases hmem <;> exact ⟨by decide, by decide, by decide, by decide, by decide, by decide⟩

theorem directiveRest_inert (st : ParseState) (key : String) (value : Option String)
    (h1 : aLookup SECTION_START key = none)
    (h2 : SECTION_END.contains key = false)
    (hc1 : key ≠ "comment") (hc2 : key ≠ "c")
    (hc3 : key ≠ "comment_italic") (hc4 : key ≠ "ci") :
    directiveRest st key value = st := by
  unfold directiveRest
  rw [h1]
  simp only []
  rw [if_neg (by simpa using h2), if_neg (by simp [hc1, hc2, hc3, hc4])]

end ChordProParser

/-! ## Claim theorems about the parsers and the classifier (C6, C7, C8, C10) -/

open ChordModel ChordProParser in
/-- C6: every document returned by the ChordPro parser contains only sections
with at least one line holding at least one token (fully empty sections are
silently discarded); in particular `{start_of_verse}` immediately followed by
`{end_of_verse}` yields zero sections. -/
theorem C6_section_flush_invariant :
    (∀ text : String, sectionsOk (parseChordPro text) = true) ∧
    (parseChordPro "\x7bstart_of_verse\x7d\n\x7bend_of_verse\x7d").sections = [] := by
  constructor
  · intro text
    unfold parseChordPro
    exact flushSection_ok _ _ (foldl_parse_ok _ _ (by decide))
  · decide

open ChordModel ChordProParser in
/-- C10: a recognized metadata directive whose value is absent, empty, or
whitespace-only leaves the parser state — in particular every document
metadata field — unchanged, so an earlier non-empty value survives a later
empty occurrence of the same directive. -/
theorem C10_empty_meta_directive_noop :
    (∀ (st : ParseState) (line name : List Char) (valueOpt : Option (List Char)),
        matchDirective (jsTrim line) = some (name, valueOpt) →
        (aLookup DIRECTIVE_META (String.mk (lowerStr (jsTrim name)))).isSome = true →
        (valueOpt.map (fun v => String.mk (jsTrim v))).getD "" = "" →
        parseChordProLine st line = st) ∧
    (parseChordPro "\x7btitle: A\x7d\n\x7btitle:\x7d\n\x7bkey: \x7d").title = some "A" ∧
    (parseChordPro "\x7btitle: A\x7d\n\x7btitle:\x7d\n\x7bkey: \x7d").key = none := by
  refine ⟨?_, by decide, by decide⟩
  intro st line name valueOpt h1 h2 h3
  obtain ⟨rest, hrest⟩ := matchDirective_head _ _ h1
  obtain ⟨hs1, hs2, hc1, hc2, hc3, hc4⟩ := meta_key_inert _ h2
  obtain ⟨f, hf⟩ := Option.isSome_iff_exists.mp h2
  unfold parseChordProLine
  rw [hrest] at h1 ⊢
  rw [if_neg (by simp), if_neg (by simp), h1]
  simp only []
  cases valueOpt with
  | none =>
    simp only [Option.map_none']
    rw [hf]
    show directiveRest st (String.mk (lowerStr (jsTrim name))) none = st
    exact directiveRest_inert _ _ _ hs1 hs2 hc1 hc2 hc3 hc4
  | some v =>
    simp only [Option.map_some'] at h3 ⊢
    simp only [Option.getD_some] at h3
    rw [hf, h3]
    show (if ("" : String) ≠ "" then { st with doc := setMetaField st.doc f "" }
        else directiveRest st (String.mk (lowerStr (jsTrim name))) (some "")) = st
    rw [if_neg (by simp)]
    exact directiveRest_inert _ _ _ hs1 hs2 hc1 hc2 hc3 hc4

open ChordProParser SniffFormat in
/-- Witness for the C10 theorem: the empty-valued directive line `{title:}`
leaves a concrete parser state untouched. -/
theorem C10_empty_meta_directive_noop_witness :
    parseChordProLine
      { doc := { sections := [], sourceFormat := "chordpro" }, current := makeSection }
      "\x7btitle:\x7d".data
    = { doc := { sections := [], sourceFormat := "chordpro" }, current := makeSection } :=
  C10_empty_meta_directive_noop.1 _ "\x7btitle:\x7d".data "title".data (some []) (by decide)
    (by decide) (by decide)

open ChordProParser SniffFormat in
/-- C7 counterexample: the chords-over-words parser does not use the
classifier's chord-token-majority heuristic.  On the single-token line
`"Am"` the parser's test accepts (its threshold is one matching token) while
the classifier's heuristic — which requires at least two — rejects, and the
parser renders the line as a chord line. -/
theorem C7_chord_line_counterexample :
    ChordProParser.isChordLine "Am".data = true ∧
    SniffFormat.isChordLine "Am".data = false ∧
    (parseChordsOverWords "Am").sections =
      [{ type := .unknown, label := none,
         lines := [{ tokens := [{ kind := .chord, text := "Am" }] }] }] := by decide

open ChordProParser SniffFormat in
/-- C7 (amended): the chords-over-words parser classifies a line as a chord
line when at least one whitespace-delimited token matches the chord-symbol
grammar and at least 70 % of its tokens do; this accepts every line the
classifier's heuristic accepts (which demands at least two matching tokens)
and differs from it exactly on single-token lines. -/
theorem C7_chord_line_heuristic :
    (∀ line : List Char, SniffFormat.isChordLine line = true →
        ChordProParser.isChordLine line = true) ∧
    (∀ line : List Char, ChordProParser.isChordLine line = true →
        SniffFormat.isChordLine line = true ∨ (splitWs (jsTrim line)).length = 1) := by
  have hparser : ∀ line : List Char, ChordProParser.isChordLine line = true ↔
      1 ≤ ((splitWs (jsTrim line)).filter CHORD_TOKEN_RE).length ∧
      7 * (splitWs (jsTrim line)).length
        ≤ 10 * ((splitWs (jsTrim line)).filter CHORD_TOKEN_RE).length := by
    intro line
    have hle := List.length_filter_le CHORD_TOKEN_RE (splitWs (jsTrim line))
    unfold ChordProParser.isChordLine
    by_cases h : (splitWs (jsTrim line)).length < 1
    · simp only [if_pos h]
      constructor
      · intro hh; cases hh
      · rintro ⟨h1, h2⟩; omega
    · simp only [if_neg h, Bool.and_eq_true, decide_eq_true_eq]
  have hsniff : ∀ line : List Char, SniffFormat.isChordLine line = true ↔
      2 ≤ ((splitWs (jsTrim line)).filter CHORD_TOKEN_RE).length ∧
      7 * (splitWs (jsTrim line)).length
        ≤ 10 * ((splitWs (jsTrim line)).filter CHORD_TOKEN_RE).length := by
    intro line
    have hle := List.length_filter_le CHORD_TOKEN_RE (splitWs (jsTrim line))
    unfold SniffFormat.isChordLine
    by_cases h : (splitWs (jsTrim line)).isEmpty
    · simp only [if_pos h]
      have hlen : (splitWs (jsTrim line)).length = 0 := by
        rw [List.isEmpty_iff] at h
        simp [h]
      constructor
      · intro hh; cases hh
      · rintro ⟨h1, h2⟩; omega
    · simp only [if_neg h, Bool.and_eq_true, decide_eq_true_eq]
  constructor
  · intro line h
    rw [hsniff] at h
    rw [hparser]
    exact ⟨by omega, h.2⟩
  · intro line h
    rw [hparser] at h
    have hle := List.length_filter_le CHORD_TOKEN_RE (splitWs (jsTrim line))
    by_cases h2 : 2 ≤ ((splitWs (jsTrim line)).filter CHORD_TOKEN_RE).length
    · exact Or.inl ((hsniff line).mpr ⟨h2, h.2⟩)
    · right
      omega

open ChordProParser SniffFormat in
/-- Witness for the amended C7 theorem: the two-chord line `"C G"` is
accepted by the classifier heuristic, hence by the parser's test. -/
theorem C7_chord_line_heuristic_witness :
    SniffFormat.isChordLine "C G".data = true ∧
    ChordProParser.isChordLine "C G".data = true :=
  ⟨by decide, C7_chord_line_heuristic.1 "C G".data (by decide)⟩

open SniffFormat in
/-- C8 counterexample: the claim's carve-outs are incomplete.  A file whose
text contains both a `{title: X}` directive and a `[Verse 1]` header, with no
ZIP magic and no MusicXML root element anywhere, still classifies as musicxml
— not chordpro — when the filename has an `.xml` extension and the head
starts with an XML prolog, because that check precedes the directive check. -/
theorem C8_classifier_counterexample :
    sniffFormatFromBytes "<?xml version=\"1.0\"?>\n\x7btitle: X\x7d\n[Verse 1]" "song.xml"
      = DetectedFormat.musicxml ∧
    containsSub "<?xml version=\"1.0\"?>\n\x7btitle: X\x7d\n[Verse 1]".data
      "\x7btitle: X\x7d".data = true ∧
    containsSub "<?xml version=\"1.0\"?>\n\x7btitle: X\x7d\n[Verse 1]".data
      "[Verse 1]".data = true ∧
    hasZipMagic ("<?xml version=\"1.0\"?>\n\x7btitle: X\x7d\n[Verse 1]".data.map Char.toNat)
      = false ∧
    containsSub "<?xml version=\"1.0\"?>\n\x7btitle: X\x7d\n[Verse 1]".data
      "<score-partwise".data = false ∧
    containsSub "<?xml version=\"1.0\"?>\n\x7btitle: X\x7d\n[Verse 1]".data
      "<score-timewise".data = false := by decide

open SniffFormat in
/-- C8 (amended): for any input whose decoded 2 KB head matches a ChordPro
metadata directive, where the bytes lack ZIP magic, the head contains no
MusicXML score root element, and it is not an `.xml`/`.musicxml` file whose
head starts with an XML prolog, the classifier returns chordpro — regardless
of any `[Verse 1]` section header, because the directive-syntax check
precedes the section-header check in the fixed detection order. -/
theorem C8_directive_precedes_section_header :
    (∀ (text filename : String),
      hasZipMagic (text.data.map Char.toNat) = false →
      containsSub (text.data.take 2048) "<score-partwise".data = false →
      containsSub (text.data.take 2048) "<score-timewise".data = false →
      ((fileExtension filename = "xml" ∨ fileExtension filename = "musicxml") →
        "<?xml".data.isPrefixOf ((text.data.take 2048).dropWhile isJsWs) = false) →
      chordProDirectiveTest (text.data.take 2048) = true →
      sniffFormatFromBytes text filename = DetectedFormat.chordpro) ∧
    sniffFormatFromBytes "\x7btitle: X\x7d\n[Verse 1]" "" = DetectedFormat.chordpro := by
  refine ⟨?_, by decide⟩
  intro text filename h1 h2 h3 h4 h5
  unfold sniffFormatFromBytes
  rw [if_neg (by simp [h1])]
  simp only []
  rw [if_neg (by simp [h2, h3]), if_neg ?hpro, if_pos (by simp [h5])]
  case hpro =>
    intro hcond
    simp only [Bool.and_eq_true, Bool.or_eq_true, decide_eq_true_eq] at hcond
    have := h4 hcond.1
    rw [hcond.2] at this
    cases this

open SniffFormat in
/-- Witness for the amended C8 theorem at a concrete input containing both a
title directive and a `[Verse 1]` header. -/
theorem C8_directive_precedes_section_header_witness :
    sniffFormatFromBytes "\x7btitle: X\x7d\n[Verse 1]\nHello" ""
      = DetectedFormat.chordpro :=
  C8_directive_precedes_section_header.1 "\x7btitle: X\x7d\n[Verse 1]\nHello" ""
    (by decide) (by decide) (by decide) (fun h => by revert h; decide) (by decide)

/-! ## Supporting lemmas about the engine -/

namespace Convert

theorem gridSlotIndex_floor (N dur off : Int) (hdur : 0 < dur) :
    gridSlotIndex N dur off = max 0 (min (N - 1) ⌊(off : ℚ) / (dur : ℚ) * (N : ℚ)⌋) := by
  unfold gridSlotIndex
  simp only []
  rw [if_pos hdur, show max 1 dur = dur from by omega]
  have hfloor : ⌊(off : ℚ) / (dur : ℚ) * (N : ℚ)⌋ = Int.fdiv (off * N) dur := by
    have hd0 : (0 : Int) ≤ dur := le_of_lt hdur
    have hcast : ((dur.toNat : Nat) : ℚ) = (dur : ℚ) := by
      exact_mod_cast Int.toNat_of_nonneg hd0
    have h1 : (off : ℚ) / (dur : ℚ) * (N : ℚ) = ((off * N : Int) : ℚ) / ((dur.toNat : Nat) : ℚ) := by
      rw [hcast]
      push_cast
      ring
    rw [h1, Rat.floor_intCast_div_natCast, Int.fdiv_eq_ediv _ hd0,
      show ((dur.toNat : Nat) : Int) = dur from Int.toNat_of_nonneg hd0]
  rw [hfloor]

end Convert

/-! ## Claim theorems about the engine (C3, C4, C5) -/

open Convert in
/-- C3: under repeat strategy simple-unroll with no ending markers, the
resolved measure order splices one duplicate copy of the closed range from
the first repeat-start measure through the first later repeat-end measure
immediately after itself; on 4 measures with repeat-start at 0 and repeat-end
at 2 the order is `[0,1,2,0,1,2,3]` — one duplication, never recursive. -/
theorem C3_simple_unroll_splice :
    (∀ (measures : List MeasureData) (options : ConvertOptions) (s e : Nat)
        (me : MeasureData),
      options.repeatStrategy = RepeatStrategy.simpleUnroll →
      (∀ m ∈ measures, m.endings = []) →
      measures.findIdx? (·.repeatStart) = some s →
      measures.enum.find? (fun p => decide (s < p.1) && p.2.repeatEnd) = some (e, me) →
      (resolveMeasureOrder measures options ((measures.map (·.endings.length)).sum)).1
        = (measures.map (·.measureIndex)).take (e + 1)
          ++ ((measures.map (·.measureIndex)).drop s).take (e + 1 - s)
          ++ (measures.map (·.measureIndex)).drop (e + 1)) ∧
    (resolveMeasureOrder
        [{ measureIndex := 0, durationDivisions := 960, harmonies := [],
           lyricsByVerse := [], repeatStart := true, repeatEnd := false, endings := [] },
         { measureIndex := 1, durationDivisions := 960, harmonies := [],
           lyricsByVerse := [], repeatStart := false, repeatEnd := false, endings := [] },
         { measureIndex := 2, durationDivisions := 960, harmonies := [],
           lyricsByVerse := [], repeatStart := false, repeatEnd := true, endings := [] },
         { measureIndex := 3, durationDivisions := 960, harmonies := [],
           lyricsByVerse := [], repeatStart := false, repeatEnd := false, endings := [] }]
        { getDefaultConvertOptions with repeatStrategy := RepeatStrategy.simpleUnroll }
        0).1
      = [0, 1, 2, 0, 1, 2, 3] := by
  constructor
  · intro measures options s e me hstrat hend hfind1 hfind2
    have hsum : (measures.map (·.endings.length)).sum = 0 := by
      apply List.sum_eq_zero
      intro x hx
      obtain ⟨m, hm, hxm⟩ := List.mem_map.mp hx
      rw [← hxm, hend m hm]
      rfl
    unfold resolveMeasureOrder
    rw [hsum, if_neg (by simp [hstrat]), if_neg (by omega), hfind1]
    simp only []
    rw [hfind2]
  · decide

open Convert in
/-- Witness for the C3 theorem at the 4-measure timeline with repeat-start at
index 0 and repeat-end at index 2. -/
theorem C3_simple_unroll_splice_witness :
    (resolveMeasureOrder
        [{ measureIndex := 0, durationDivisions := 960, harmonies := [],
           lyricsByVerse := [], repeatStart := true, repeatEnd := false, endings := [] },
         { measureIndex := 1, durationDivisions := 960, harmonies := [],
           lyricsByVerse := [], repeatStart := false, repeatEnd := false, endings := [] },
         { measureIndex := 2, durationDivisions := 960, harmonies := [],
           lyricsByVerse := [], repeatStart := false, repeatEnd := true, endings := [] },
         { measureIndex := 3, durationDivisions := 960, harmonies := [],
           lyricsByVerse := [], repeatStart := false, repeatEnd := false, endings := [] }]
        { getDefaultConvertOptions with repeatStrategy := RepeatStrategy.simpleUnroll }
        0).1
      = [0, 1, 2, 0, 1, 2, 3] := by
  have h := C3_simple_unroll_splice.1
    [{ measureIndex := 0, durationDivisions := 960, harmonies := [],
       lyricsByVerse := [], repeatStart := true, repeatEnd := false, endings := [] },
     { measureIndex := 1, durationDivisions := 960, harmonies := [],
       lyricsByVerse := [], repeatStart := false, repeatEnd := false, endings := [] },
     { measureIndex := 2, durationDivisions := 960, harmonies := [],
       lyricsByVerse := [], repeatStart := false, repeatEnd := true, endings := [] },
     { measureIndex := 3, durationDivisions := 960, harmonies := [],
       lyricsByVerse := [], repeatStart := false, repeatEnd := false, endings := [] }]
    { getDefaultConvertOptions with repeatStrategy := RepeatStrategy.simpleUnroll }
    0 2
    { measureIndex := 2, durationDivisions := 960, harmonies := [],
      lyricsByVerse := [], repeatStart := false, repeatEnd := true, endings := [] }
    rfl (by decide) (by decide) (by decide)
  exact h

open Convert in
/-- C4: in grid rendering, a harmony's slot index is
`floor(offset / measureDuration * N)` clamped to `[0, N-1]` (for positive
measure durations); a harmony landing on an occupied slot is dropped and
counted as a collision; conversion of a successfully parsed score never sets
the error field; and a 960-division measure with one harmony at offset 480
and 4 slots renders as `". . [X] ."` with no collisions. -/
theorem C4_grid_slot_quantization :
    (∀ (N dur off : Int), 0 < dur →
        gridSlotIndex N dur off = max 0 (min (N - 1) ⌊(off : ℚ) / (dur : ℚ) * (N : ℚ)⌋)) ∧
    (∀ (N dur : Int) (slots : List String) (collisions : Nat) (h : HarmonyEvent),
        slots.getD (gridSlotIndex N dur h.offsetDivisions).toNat "" ≠ "." →
        gridMeasureStep N dur (slots, collisions) h = (slots, collisions + 1)) ∧
    (∀ (score : Score) (options : ConvertOptions),
        (convertMusicXmlToChordPro (some score) options).error = Option.none) ∧
    gridMeasureText 4
      { measureIndex := 0, durationDivisions := 960,
        harmonies := [{ measureIndex := 0, offsetDivisions := 480, chordText := "X" }],
        lyricsByVerse := [], repeatStart := false, repeatEnd := false, endings := [] }
      = (". . [X] .", 0) := by
  refine ⟨gridSlotIndex_floor, ?_, fun _ _ => rfl, by decide⟩
  intro N dur slots collisions h hocc
  unfold gridMeasureStep
  simp only []
  rw [if_pos hocc]

open Convert in
/-- Witness for the C4 theorem: the slot formula at duration 960, offset 480,
4 slots, and a collision on an already-occupied slot 0. -/
theorem C4_grid_slot_quantization_witness :
    gridSlotIndex 4 960 480
      = max 0 (min (4 - 1) ⌊(480 : ℚ) / (960 : ℚ) * (4 : ℚ)⌋) ∧
    gridMeasureStep 4 960 (["[C]", ".", ".", "."], 0)
        { measureIndex := 0, offsetDivisions := 0, chordText := "G" }
      = (["[C]", ".", ".", "."], 1) :=
  ⟨C4_grid_slot_quantization.1 4 960 480 (by decide),
   C4_grid_slot_quantization.2.1 4 960 ["[C]", ".", ".", "."] 0
     { measureIndex := 0, offsetDivisions := 0, chordText := "G" } (by decide)⟩

open Convert in
/-- C5: the two error-discipline halves hold — parse failure yields exactly
the degraded `{title: Untitled}` text with the error string, and a
successfully parsed score never sets the error field — but the "non-empty
chordPro" half fails: an explicit lyrics-inline conversion with barline style
"none" of a score with one empty measure and no metadata returns a
zero-length chordPro text, slipping past the `lines.length === 0` guard
because the rendered lines are `[""]`. -/
theorem C5_convert_error_discipline :
    (∀ options : ConvertOptions,
        convertMusicXmlToChordPro Option.none options
          = { chordPro := "\x7btitle: Untitled\x7d\n% Failed to parse MusicXML.",
              warnings := [], error := some "MusicXML parser error" }) ∧
    (∀ (score : Score) (options : ConvertOptions),
        (convertMusicXmlToChordPro (some score) options).error = Option.none) ∧
    (convertMusicXmlToChordPro
        (some { metadata := {}, partsCount := 1, selectedLyricPartId := Option.none,
                measures := [{ measureIndex := 0, durationDivisions := 0, harmonies := [],
                               lyricsByVerse := [], repeatStart := false,
                               repeatEnd := false, endings := [] }] })
        { getDefaultConvertOptions with
            formatMode := .lyricsInline, barlineStyle := BarlineStyle.none }).chordPro
      = "" := by
  exact ⟨fun _ => rfl, fun _ _ => rfl, by decide⟩

namespace Convert


theorem advanceCarry_shift (e : LyricEvent) :
    ∀ (fuel : Nat) (lyr : List LyricEvent) (c : Nat) (off : Int),
      advanceCarry fuel (e :: lyr) (c + 1) off = advanceCarry fuel lyr c off + 1 := by
  intro fuel
  induction fuel with
  | zero => intro lyr c off; rfl
  | succ f ih =>
    intro lyr c off
    simp only [advanceCarry]
    have hcond : (c + 1 < (e :: lyr).length - 1 ∧
        ((e :: lyr).getD (c + 1) defaultLyricEvent).offsetDivisions < off)
        ↔ (c < lyr.length - 1 ∧ (lyr.getD c defaultLyricEvent).offsetDivisions < off) := by
      rw [List.getD_cons_succ]
      simp only [List.length_cons]
      constructor
      · rintro ⟨h1, h2⟩; exact ⟨by omega, h2⟩
      · rintro ⟨h1, h2⟩; exact ⟨by omega, h2⟩
    by_cases hc : c < lyr.length - 1 ∧ (lyr.getD c defaultLyricEvent).offsetDivisions < off
    · rw [if_pos (hcond.mpr hc), if_pos hc, ih]
    · rw [if_neg (fun h => hc (hcond.mp h)), if_neg hc]

theorem advanceCarry_zero_spec : ∀ (lyr : List LyricEvent) (off : Int) (fuel : Nat),
    lyr.length ≤ fuel → advanceCarry fuel lyr 0 off = firstAtOrAfter lyr off := by
  intro lyr
  induction lyr with
  | nil =>
    intro off fuel h
    match fuel with
    | 0 => rfl
    | f + 1 =>
      simp only [advanceCarry, firstAtOrAfter]
      rw [if_neg (by simp)]
  | cons e rest ih =>
    intro off fuel h
    match rest, fuel with
    | [], f + 1 =>
      simp only [advanceCarry, firstAtOrAfter]
      rw [if_neg (by simp)]
    | r :: rs, f + 1 =>
      simp only [advanceCarry]
      by_cases hoff : off ≤ e.offsetDivisions
      · rw [if_neg (by
          rintro ⟨-, h2⟩
          rw [List.getD_cons_zero] at h2
          omega)]
        simp only [firstAtOrAfter]
        rw [if_pos hoff]
      · rw [if_pos (by
          constructor
          · simp
          · rw [List.getD_cons_zero]; omega)]
        rw [show (0 : Nat) + 1 = 0 + 1 from rfl, advanceCarry_shift e f (r :: rs) 0 off,
          ih off f (by simpa using h)]
        simp only [firstAtOrAfter]
        rw [if_neg hoff]

theorem chordBucketFold_single (lyr : List LyricEvent) (h : HarmonyEvent) :
    chordBucketFold lyr [h] 0 (fun _ => []) =
      fun i => if i = firstAtOrAfter lyr h.offsetDivisions then [h.chordText] else [] := by
  unfold chordBucketFold
  simp only []
  rw [advanceCarry_zero_spec lyr h.offsetDivisions lyr.length (le_refl _)]
  funext i
  unfold chordBucketFold
  split <;> simp_all

theorem sortByOffset_singleton {α : Type} (key : α → Int) (x : α) :
    sortByOffset key [x] = [x] := rfl

theorem formatChordPrefix_nil (style : ChordBracketStyle) :
    formatChordPrefix [] style = "" := rfl

theorem formatChordPrefix_ite (style : ChordBracketStyle) (t i : Nat) (ct : String) :
    formatChordPrefix (if i = t then [ct] else []) style
      = if i = t then formatChordPrefix [ct] style else "" := by
  by_cases h : i = t
  · rw [if_pos h, if_pos h]
  · rw [if_neg h, if_neg h, formatChordPrefix_nil]

theorem firstAtOrAfter_le_length (off : Int) :
    ∀ lyr : List LyricEvent, firstAtOrAfter lyr off ≤ lyr.length - 1 := by
  intro lyr
  induction lyr with
  | nil => simp [firstAtOrAfter]
  | cons e rest ih =>
    cases rest with
    | nil => simp [firstAtOrAfter]
    | cons f rs =>
      simp only [firstAtOrAfter, List.length_cons]
      by_cases hoff : off ≤ e.offsetDivisions
      · rw [if_pos hoff]; omega
      · rw [if_neg hoff]
        simp only [List.length_cons] at ih
        omega

theorem firstAtOrAfter_prefix_lt (off : Int) :
    ∀ (lyr : List LyricEvent) (i : Nat), i < firstAtOrAfter lyr off →
      (lyr.getD i defaultLyricEvent).offsetDivisions < off := by
  intro lyr
  induction lyr with
  | nil => intro i h; simp only [firstAtOrAfter] at h; omega
  | cons e rest ih =>
    cases rest with
    | nil => intro i h; simp only [firstAtOrAfter] at h; omega
    | cons f rs =>
      intro i h
      simp only [firstAtOrAfter] at h
      by_cases hoff : off ≤ e.offsetDivisions
      · rw [if_pos hoff] at h; omega
      · rw [if_neg hoff] at h
        cases i with
        | zero => rw [List.getD_cons_zero]; omega
        | succ j =>
          rw [List.getD_cons_succ]
          exact ih j (by omega)

theorem firstAtOrAfter_stop (off : Int) :
    ∀ lyr : List LyricEvent,
      off ≤ (lyr.getD (firstAtOrAfter lyr off) defaultLyricEvent).offsetDivisions ∨
        firstAtOrAfter lyr off = lyr.length - 1 := by
  intro lyr
  induction lyr with
  | nil => right; simp [firstAtOrAfter]
  | cons e rest ih =>
    cases rest with
    | nil => right; simp [firstAtOrAfter]
    | cons f rs =>
      by_cases hoff : off ≤ e.offsetDivisions
      · left
        simp only [firstAtOrAfter, if_pos hoff, List.getD_cons_zero]
        exact hoff
      · simp only [firstAtOrAfter, if_neg hoff, List.getD_cons_succ, List.length_cons]
        rcases ih with h | h
        · left; exact h
        · right
          simp only [List.length_cons] at h
          omega

theorem firstAtOrAfter_mono (off1 off2 : Int) (hoffs : off1 ≤ off2) :
    ∀ lyr : List LyricEvent, firstAtOrAfter lyr off1 ≤ firstAtOrAfter lyr off2 := by
  intro lyr
  induction lyr with
  | nil => simp [firstAtOrAfter]
  | cons e rest ih =>
    cases rest with
    | nil => simp [firstAtOrAfter]
    | cons f rs =>
      simp only [firstAtOrAfter]
      by_cases h1 : off1 ≤ e.offsetDivisions
      · rw [if_pos h1]
        exact Nat.zero_le _
      · rw [if_neg h1, if_neg (by omega)]
        omega

theorem advanceCarry_exact (lyr : List LyricEvent) (off : Int) :
    ∀ (fuel c : Nat), c ≤ firstAtOrAfter lyr off →
      firstAtOrAfter lyr off - c ≤ fuel →
      advanceCarry fuel lyr c off = firstAtOrAfter lyr off := by
  intro fuel
  induction fuel with
  | zero =>
    intro c hc hf
    have hce : c = firstAtOrAfter lyr off := by omega
    simp only [advanceCarry]
    exact hce
  | succ f ih =>
    intro c hc hf
    by_cases he : c = firstAtOrAfter lyr off
    · have hcond : ¬(c < lyr.length - 1 ∧
          (lyr.getD c defaultLyricEvent).offsetDivisions < off) := by
        rintro ⟨h1, h2⟩
        rcases firstAtOrAfter_stop off lyr with h | h
        · rw [he] at h2; omega
        · omega
      simp only [advanceCarry]
      rw [if_neg hcond]
      exact he
    · have hlt : c < firstAtOrAfter lyr off := Nat.lt_of_le_of_ne hc he
      have hcond : c < lyr.length - 1 ∧
          (lyr.getD c defaultLyricEvent).offsetDivisions < off := by
        refine ⟨?_, firstAtOrAfter_prefix_lt off lyr c hlt⟩
        have hle := firstAtOrAfter_le_length off lyr
        omega
      simp only [advanceCarry]
      rw [if_pos hcond]
      exact ih (c + 1) hlt (by omega)

theorem stableInsert_mem {α : Type} (key : α → Int) (x : α) :
    ∀ (l : List α) (z : α), z ∈ stableInsert (fun a b => key a < key b) x l →
      z = x ∨ z ∈ l := by
  intro l
  induction l with
  | nil =>
    intro z hz
    simp only [stableInsert, List.mem_singleton] at hz
    exact Or.inl hz
  | cons y ys ih =>
    intro z hz
    simp only [stableInsert] at hz
    split at hz
    · rcases List.mem_cons.mp hz with h | h
      · exact Or.inr (List.mem_cons.mpr (Or.inl h))
      · rcases ih z h with h2 | h2
        · exact Or.inl h2
        · exact Or.inr (List.mem_cons.mpr (Or.inr h2))
    · rcases List.mem_cons.mp hz with h | h
      · exact Or.inl h
      · exact Or.inr h

theorem stableInsert_pairwise {α : Type} (key : α → Int) (x : α) :
    ∀ l : List α, List.Pairwise (fun a b => key a ≤ key b) l →
      List.Pairwise (fun a b => key a ≤ key b)
        (stableInsert (fun a b => key a < key b) x l) := by
  intro l
  induction l with
  | nil =>
    intro _
    simp only [stableInsert]
    exact List.pairwise_singleton _ x
  | cons y ys ih =>
    intro hp
    rcases List.pairwise_cons.mp hp with ⟨hy, hys⟩
    simp only [stableInsert]
    split
    · rename_i hb
      have hyx : key y < key x := by simpa using hb
      refine List.pairwise_cons.mpr ⟨?_, ih hys⟩
      intro z hz
      rcases stableInsert_mem key x ys z hz with h | h
      · subst h; omega
      · exact hy z h
    · rename_i hb
      have hxy : key x ≤ key y := by
        have := hb
        simp only [decide_eq_true_eq] at this
        omega
      refine List.pairwise_cons.mpr ⟨?_, hp⟩
      intro z hz
      rcases List.mem_cons.mp hz with h | h
      · subst h; exact hxy
      · exact le_trans hxy (hy z h)

theorem stableSort_pairwise {α : Type} (key : α → Int) :
    ∀ l : List α, List.Pairwise (fun a b => key a ≤ key b)
      (stableSort (fun a b => key a < key b) l) := by
  intro l
  induction l with
  | nil =>
    simp only [stableSort]
    exact List.Pairwise.nil
  | cons x xs ih =>
    simp only [stableSort]
    exact stableInsert_pairwise key x _ ih

theorem sortByOffset_pairwise {α : Type} (key : α → Int) (l : List α) :
    List.Pairwise (fun a b => key a ≤ key b) (sortByOffset key l) :=
  stableSort_pairwise key l

theorem chordBucketFold_eq_filter (lyr : List LyricEvent) :
    ∀ (hs : List HarmonyEvent) (c : Nat) (bucket : Nat → List String),
      List.Pairwise (fun a b => a.offsetDivisions ≤ b.offsetDivisions) hs →
      (∀ h ∈ hs, c ≤ firstAtOrAfter lyr h.offsetDivisions) →
      ∀ i, chordBucketFold lyr hs c bucket i
        = bucket i ++ ((hs.filter fun h =>
            firstAtOrAfter lyr h.offsetDivisions = i).map (·.chordText)) := by
  intro hs
  induction hs with
  | nil =>
    intro c bucket _ _ i
    simp [chordBucketFold]
  | cons h hs ih =>
    intro c bucket hp hc i
    rcases List.pairwise_cons.mp hp with ⟨hhead, htail⟩
    have hc0 : c ≤ firstAtOrAfter lyr h.offsetDivisions :=
      hc h (List.mem_cons_self h hs)
    have hcarry : advanceCarry lyr.length lyr c h.offsetDivisions
        = firstAtOrAfter lyr h.offsetDivisions := by
      apply advanceCarry_exact lyr h.offsetDivisions lyr.length c hc0
      have := firstAtOrAfter_le_length h.offsetDivisions lyr
      omega
    have hmono : ∀ h2 ∈ hs,
        firstAtOrAfter lyr h.offsetDivisions ≤ firstAtOrAfter lyr h2.offsetDivisions :=
      fun h2 hm =>
        firstAtOrAfter_mono h.offsetDivisions h2.offsetDivisions (hhead h2 hm) lyr
    simp only [chordBucketFold]
    rw [hcarry]
    rw [ih (firstAtOrAfter lyr h.offsetDivisions)
      (fun j => if j = firstAtOrAfter lyr h.offsetDivisions
                then bucket j ++ [h.chordText] else bucket j) htail hmono i]
    by_cases hi : i = firstAtOrAfter lyr h.offsetDivisions
    · subst hi
      simp [List.filter_cons]
    · rw [if_neg hi]
      have hpf : (decide (firstAtOrAfter lyr h.offsetDivisions = i)) = false := by
        simp only [decide_eq_false_iff_not]
        exact fun e => hi e.symm
      simp [List.filter_cons, hpf]

end Convert

/-! ## Claim theorems about lyrics-inline rendering (C1) -/

open Convert in
/-- C1 counterexample: in the lyrics-inline renderer, a harmony's chord does
not prefix every syllable it is active for.  On the claim's own concrete
measure (harmonies at offsets 0 and 240, syllables at 0/120/240/360) the
rendered text is `"[C]a b [G]c d"` — the syllables at offsets 120 and 360
carry no chord prefix — and not the claimed `"[C]a [C]b [G]c [G]d"`. -/
theorem C1_carry_forward_counterexample :
    renderSingleMeasureLyrics
      { measureIndex := 0, durationDivisions := 480,
        harmonies := [{ measureIndex := 0, offsetDivisions := 0, chordText := "C" },
                      { measureIndex := 0, offsetDivisions := 240, chordText := "G" }],
        lyricsByVerse := [("1",
          [{ verse := "1", measureIndex := 0, offsetDivisions := 0, text := "a",
             syllabic := Option.none, extend := false },
           { verse := "1", measureIndex := 0, offsetDivisions := 120, text := "b",
             syllabic := Option.none, extend := false },
           { verse := "1", measureIndex := 0, offsetDivisions := 240, text := "c",
             syllabic := Option.none, extend := false },
           { verse := "1", measureIndex := 0, offsetDivisions := 360, text := "d",
             syllabic := Option.none, extend := false }])],
        repeatStart := false, repeatEnd := false, endings := [] }
      [{ verse := "1", measureIndex := 0, offsetDivisions := 0, text := "a",
         syllabic := Option.none, extend := false },
       { verse := "1", measureIndex := 0, offsetDivisions := 120, text := "b",
         syllabic := Option.none, extend := false },
       { verse := "1", measureIndex := 0, offsetDivisions := 240, text := "c",
         syllabic := Option.none, extend := false },
       { verse := "1", measureIndex := 0, offsetDivisions := 360, text := "d",
         syllabic := Option.none, extend := false }]
      getDefaultConvertOptions
      = "[C]a b [G]c d" ∧
    ("[C]a b [G]c d" : String) ≠ "[C]a [C]b [G]c [G]d" := by decide

open Convert in
/-- C1 (amended): for every measure, in lyrics-inline rendering each
harmony's chord prefixes exactly ONE syllable.  Writing the lyric events and
the measure's harmonies in ascending offset order (ties keeping input
order), a harmony is attached to the first syllable whose offset is at or
after the harmony's offset — the last syllable when every syllable starts
earlier — so the threaded carry index of the source loop never moves a
harmony past that target; harmonies attached to the same syllable
contribute their chords to its prefix in order, and syllables with no
attached harmony carry no chord prefix.  On the claim's concrete measure
(harmonies at offsets 0 and 240, syllables at 0/120/240/360) the rendering
is `"[C]a b [G]c d"`, not the claimed `"[C]a [C]b [G]c [G]d"`. -/
theorem C1_chord_prefixes_first_syllable_at_or_after :
    (∀ (measure : MeasureData) (lyricEvents : List LyricEvent)
        (options : ConvertOptions),
      lyricEvents ≠ [] →
      renderSingleMeasureLyrics measure lyricEvents options =
        (let sorted := sortByOffset (·.offsetDivisions) lyricEvents
         let sortedHarmonies := sortByOffset (·.offsetDivisions) measure.harmonies
         let tokens := (List.range sorted.length).map fun i =>
           let lyric := sorted.getD i defaultLyricEvent
           let pfx := formatChordPrefix
             ((sortedHarmonies.filter fun h =>
                 firstAtOrAfter sorted h.offsetDivisions = i).map (·.chordText))
             options.chordBracketStyle
           let sfx :=
             if lyric.syllabic = some Syllabic.begin ∨
                lyric.syllabic = some Syllabic.middle then "-" else ""
           pfx ++ lyric.text ++ sfx
         let joined := String.intercalate " " tokens
         if options.normalizeWhitespace then normWs joined else joined)) ∧
    renderSingleMeasureLyrics
      { measureIndex := 0, durationDivisions := 480,
        harmonies := [{ measureIndex := 0, offsetDivisions := 0, chordText := "C" },
                      { measureIndex := 0, offsetDivisions := 240, chordText := "G" }],
        lyricsByVerse := [],
        repeatStart := false, repeatEnd := false, endings := [] }
      [{ verse := "1", measureIndex := 0, offsetDivisions := 0, text := "a",
         syllabic := Option.none, extend := false },
       { verse := "1", measureIndex := 0, offsetDivisions := 120, text := "b",
         syllabic := Option.none, extend := false },
       { verse := "1", measureIndex := 0, offsetDivisions := 240, text := "c",
         syllabic := Option.none, extend := false },
       { verse := "1", measureIndex := 0, offsetDivisions := 360, text := "d",
         syllabic := Option.none, extend := false }]
      getDefaultConvertOptions
      = "[C]a b [G]c d" := by
  refine ⟨?_, by decide⟩
  intro measure lyricEvents options hne
  unfold renderSingleMeasureLyrics
  rw [if_neg (by simpa using hne)]
  have hb : ∀ i, chordBucketFold (sortByOffset (·.offsetDivisions) lyricEvents)
      (sortByOffset (·.offsetDivisions) measure.harmonies) 0 (fun _ => []) i
      = ((sortByOffset (·.offsetDivisions) measure.harmonies).filter fun h =>
          firstAtOrAfter (sortByOffset (·.offsetDivisions) lyricEvents)
            h.offsetDivisions = i).map (·.chordText) := by
    intro i
    have hspec := chordBucketFold_eq_filter
      (sortByOffset (·.offsetDivisions) lyricEvents)
      (sortByOffset (·.offsetDivisions) measure.harmonies) 0 (fun _ => [])
      (sortByOffset_pairwise (·.offsetDivisions) measure.harmonies)
      (fun _ _ => Nat.zero_le _) i
    simpa using hspec
  simp only []
  rw [funext hb]

open Convert in
/-- Witness for the amended C1 theorem at a two-harmony measure whose
harmonies share offset 0: both chords are bucketed, in input order, onto the
first syllable (rendered as the two bracket prefixes `[C][G]`), and the later
syllable carries no chord prefix. -/
theorem C1_chord_prefixes_first_syllable_at_or_after_witness :
    renderSingleMeasureLyrics
      { measureIndex := 0, durationDivisions := 480,
        harmonies := [{ measureIndex := 0, offsetDivisions := 0, chordText := "C" },
                      { measureIndex := 0, offsetDivisions := 0, chordText := "G" }],
        lyricsByVerse := [],
        repeatStart := false, repeatEnd := false, endings := [] }
      [{ verse := "1", measureIndex := 0, offsetDivisions := 0, text := "a",
         syllabic := Option.none, extend := false },
       { verse := "1", measureIndex := 0, offsetDivisions := 120, text := "b",
         syllabic := Option.none, extend := false }]
      getDefaultConvertOptions = "[C][G]a b" := by
  rw [C1_chord_prefixes_first_syllable_at_or_after.1
    { measureIndex := 0, durationDivisions := 480,
      harmonies := [{ measureIndex := 0, offsetDivisions := 0, chordText := "C" },
                    { measureIndex := 0, offsetDivisions := 0, chordText := "G" }],
      lyricsByVerse := [],
      repeatStart := false, repeatEnd := false, endings := [] }
    [{ verse := "1", measureIndex := 0, offsetDivisions := 0, text := "a",
       syllabic := Option.none, extend := false },
     { verse := "1", measureIndex := 0, offsetDivisions := 120, text := "b",
       syllabic := Option.none, extend := false }]
    getDefaultConvertOptions (by decide)]
  decide

end ChordSheet
